import Mathlib

/-!
# gitchain: the packfile codec (`git/pack.go`)

A shallow embedding of the packfile reader and writer of `git/pack.go`.

* Bytes are `Fin 256`; Go's `uint64` and `int` are `Nat` and `Int` with the
  wrap-around written out.
* Readers are the list of bytes still to be read; the `packEntryReader`
  carries its `Counter` next to it.
* A Go call can return, return an error, panic (index or slice out of range,
  negative `make`) or loop for ever; the result types keep the four apart.
* What `pack.go` imports but does not define (SHA-1, zlib, `PatchDelta`, the
  hash of an object) is collected in the structure `Lib` and every definition
  takes it as a parameter.
-/

set_option linter.dupNamespace false

namespace Pack

/-- One octet. -/
abbrev Byte := Fin 256

/-- The four kinds of stored objects: the values of `Object.Type()` that
`writeEntry` and `readEntry` know. -/
inductive ObjType where
  | commit
  | tree
  | blob
  | tag
  deriving DecidableEq, Repr

/-- Modelled from the spec: the object variants of `git/object.go`, which
`pack.go` uses through the `Object` interface (`Type`, `Bytes`, `SetBytes`,
`New`, `Hash`). An object is its variant tag and its bytes; `SetBytes` stores
the bytes and `New` gives an empty object of the same variant. -/
structure Object where
  typ : ObjType
  bytes : List Byte
  deriving DecidableEq, Repr

/-- The pending delta of `pack.go`: base hash and delta instructions. -/
structure Delta where
  Hash : List Byte
  Delta : List Byte
  deriving DecidableEq, Repr

/-- The `Packfile` struct. The two Go maps are association lists, newest
binding first, so that a later write to a key shadows the earlier one. -/
structure Packfile where
  Version : Nat
  Objects : List Object
  Checksum : List Byte
  Deltas : List Delta
  offsets : List (Int × Int)
  hashes : List (List Byte × Int)
  deriving DecidableEq, Repr

/-- What `pack.go` takes from outside the file.
* `SHA160 bs`: `util.SHA160`, also what `sha1.New()` sums to after writing `bs`.
* `objectHash o`: `o.Hash()`.
* `PatchDelta base delta`: the patched bytes, `none` for Go's `nil`.
* `zlibNewReader s`: whether `zlib.NewReader` accepts a stream starting with `s`.
* `zlibRead s n`: one `Read` into a buffer of `n` bytes from a zlib reader
  opened on `s`; `none` when `Read` returns an error, otherwise the bytes it
  delivered (at most `n`) and how many bytes `NewReader` and `Read` together
  asked of the underlying reader.
* `zlibWrite bs`: the bytes a `zlib.Writer` emits for `Write(bs)`, `Flush()`
  and `Close()`.
* `makeLimit`: the greatest length `make([]byte, n)` allocates; for a greater
  `n`, as for a negative one, `make` panics (`len out of range`).
* `SHA160_length`: a SHA-1 digest has twenty bytes. -/
structure Lib where
  SHA160 : List Byte → List Byte
  objectHash : Object → List Byte
  PatchDelta : List Byte → List Byte → Option (List Byte)
  zlibNewReader : List Byte → Bool
  zlibRead : List Byte → Nat → Option (List Byte × Nat)
  zlibWrite : List Byte → List Byte
  makeLimit : Nat
  SHA160_length : ∀ bs, (SHA160 bs).length = 20

/-- The errors `pack.go` returns. -/
inductive Err where
  | notAPackfile
  | zlibOpen
  | zlibRead
  | inflatedSizeMismatch
  | patching
  | noEntryAt
  | invalidObjectTag
  | checksumMismatch
  deriving DecidableEq, Repr

/-- Result of indexing `Objects` through one of the maps: Go's `nil`, an
object, or an index-out-of-range panic. -/
inductive ObjRef where
  | nil
  | obj (o : Object)
  | panic
  deriving DecidableEq, Repr

/-- Lookup in a Go map kept as an association list. -/
def mapGet {κ ν : Type} [DecidableEq κ] (m : List (κ × ν)) (k : κ) : Option ν :=
  match m with
  | [] => none
  | (k', v) :: rest => if k' = k then some v else mapGet rest k

/-- Go's `m[k] = v`. -/
def mapSet {κ ν : Type} (m : List (κ × ν)) (k : κ) (v : ν) : List (κ × ν) :=
  (k, v) :: m

/-- Go's `r.Objects[index]` for an `int` index. -/
def indexObjects (objs : List Object) (index : Int) : ObjRef :=
  if index < 0 then ObjRef.panic
  else
    match objs.get? index.toNat with
    | some o => ObjRef.obj o
    | none => ObjRef.panic

/-- `Packfile.ObjectByHash`. -/
def Packfile.ObjectByHash (r : Packfile) (hash : List Byte) : ObjRef :=
  match mapGet r.hashes hash with
  | none => ObjRef.nil
  | some index => indexObjects r.Objects index

/-- `Packfile.ObjectByOffset`. -/
def Packfile.ObjectByOffset (r : Packfile) (offset : Int) : ObjRef :=
  match mapGet r.offsets offset with
  | none => ObjRef.nil
  | some index => indexObjects r.Objects index

/-- `Packfile.PutObject`. -/
def Packfile.PutObject (L : Lib) (r : Packfile) (o : Object) : Packfile :=
  let objs := r.Objects ++ [o]
  { r with Objects := objs,
           hashes := mapSet r.hashes (L.objectHash o) ((objs.length : Int) - 1) }

/-- The `packEntryReader`: the bytes its `bytes.Buffer` still holds and the
`Counter` of bytes asked for so far. -/
structure packEntryReader where
  Counter : Nat
  reader : List Byte
  deriving DecidableEq, Repr

/-- Go's `binary.Read(reader, binary.BigEndian, &b)` for a byte `b`: one
`Read` of length 1, which counts even at the end of the input, where `b`
keeps its value. -/
def readByte (r : packEntryReader) (b : Byte) : packEntryReader × Byte :=
  match r.reader with
  | [] => ({ r with Counter := r.Counter + 1 }, b)
  | x :: rest => ({ Counter := r.Counter + 1, reader := rest }, x)

/-- Go's `reader.Read(p)` for a fresh `p` of `n` zero bytes: `p` afterwards,
with what the buffer could not supply left zero. -/
def readInto (r : packEntryReader) (n : Nat) : packEntryReader × List Byte :=
  ({ Counter := r.Counter + n, reader := r.reader.drop n },
   r.reader.take n ++ List.replicate (n - (r.reader.take n).length) 0)

/-- Unsigned 64-bit wrap-around. -/
def u64 (x : Nat) : Nat := x % 2 ^ 64

/-- Signed 64-bit wrap-around (Go's `int`). -/
def i64 (x : Int) : Int := (x + 2 ^ 63) % 2 ^ 64 - 2 ^ 63

/-- The loop of `readMSBEncodedSize`, by recursion on the bytes left: `b`, `sz`
and `shift` are the loop variables. `none` when the loop never exits: the
input ends while `b` has bit 7 set, every later read fails and leaves `b` as
it is. -/
def readMSBLoop : List Byte → Byte → Nat → Nat → Nat → Option (Nat × packEntryReader)
  | [], b, sz, shift, counter =>
    if b.val &&& 0x80 = 0 then
      some (u64 (sz + u64 ((b.val &&& 0x7f) <<< shift)), { Counter := counter + 1, reader := [] })
    else none
  | x :: rest, _, sz, shift, counter =>
    let sz1 := u64 (sz + u64 ((x.val &&& 0x7f) <<< shift))
    if x.val &&& 0x80 = 0 then
      some (sz1, { Counter := counter + 1, reader := rest })
    else readMSBLoop rest x sz1 (shift + 7) (counter + 1)

/-- The function `readMSBEncodedSize`. -/
def readMSBEncodedSize (r : packEntryReader) (initialOffset : Nat) :
    Option (Nat × packEntryReader) :=
  readMSBLoop r.reader 0 0 initialOffset r.Counter

/-- Outcome of a call that works on a value of type `α`. -/
inductive Outcome (α : Type) where
  | ok (a : α)
  | error (e : Err)
  | panic
  | diverge
  deriving DecidableEq, Repr

/-- The function `inflate`; `sz` is the `int` it is called with. After
`zlib.NewReader`, `make([]byte, sz)` panics when `sz` is negative or above what
`make` allocates. -/
def inflate (L : Lib) (r : packEntryReader) (sz : Int) :
    Outcome (List Byte × packEntryReader) :=
  if ¬ L.zlibNewReader r.reader then Outcome.error Err.zlibOpen
  else if sz < 0 ∨ (L.makeLimit : Int) < sz then Outcome.panic
  else
    match L.zlibRead r.reader sz.toNat with
    | none => Outcome.error Err.zlibRead
    | some (out, cnt) =>
      if (out.length : Int) ≠ sz then Outcome.error Err.inflatedSizeMismatch
      else Outcome.ok (out, { Counter := r.Counter + cnt, reader := r.reader.drop cnt })

/-- Outcome of `readEntry`: the packfile and reader it leaves, or the error it
returns with the packfile as it is then. -/
inductive EntryResult where
  | ok (p : Packfile) (r : packEntryReader)
  | error (e : Err) (p : Packfile)
  | panic
  | diverge
  deriving DecidableEq, Repr

/-- The size in an entry header: the low four bits of the first byte `b`, plus
`readMSBEncodedSize(reader, 4)` when bit 7 of `b` is set. `none` when that
call never returns. -/
def readEntrySize (r : packEntryReader) (b : Byte) : Option (Nat × packEntryReader) :=
  let sz := b.val &&& 0x0f
  if b.val &&& 0x80 ≠ 0 then
    match readMSBEncodedSize r 4 with
    | none => none
    | some (s, r1) => some (u64 (sz + s), r1)
  else some (sz, r)

/-- The negative-offset loop of the `OBJ_OFS_DELTA` case, by recursion on the
bytes left; `b` and `noffset` are the loop variables. `none` when the input
ends while `b` has bit 7 set. -/
def readOffsetLoop : List Byte → Byte → Int → Nat → Option (Int × packEntryReader)
  | [], b, noffset, counter =>
    if b.val &&& 0x80 ≠ 0 then none
    else some (noffset, { Counter := counter, reader := [] })
  | x :: rest, b, noffset, counter =>
    if b.val &&& 0x80 ≠ 0 then
      readOffsetLoop rest x (i64 (i64 (i64 (noffset + 1) * 2 ^ 7) + ((x.val &&& 0x7f : Nat) : Int)))
        (counter + 1)
    else some (noffset, { Counter := counter, reader := x :: rest })

/-- The negative offset of an `OBJ_OFS_DELTA` entry: the first read (which
leaves the header byte `b` in place at the end of the input) and the loop. -/
def readNegativeOffset (r : packEntryReader) (b : Byte) : Option (Int × packEntryReader) :=
  let (r1, b1) := readByte r b
  readOffsetLoop r1.reader b1 ((b1.val &&& 0x7f : Nat) : Int) r1.Counter

/-- The common tail of the two delta cases: patch, build an object of the
variant of `referenced`, put it. -/
def putPatched (L : Lib) (packfile : Packfile) (referenced : Object) (buf : List Byte)
    (r : packEntryReader) : EntryResult :=
  match L.PatchDelta referenced.bytes buf with
  | none => EntryResult.error Err.patching packfile
  | some patched =>
    EntryResult.ok (packfile.PutObject L { typ := referenced.typ, bytes := patched }) r

/-- The object variant of a type code of a full entry. -/
def objTypeOfCode (typ : Nat) : ObjType :=
  if typ = 1 then ObjType.commit
  else if typ = 2 then ObjType.tree
  else if typ = 3 then ObjType.blob
  else ObjType.tag

/-- The type of an entry, `(b &^ 0x8f) >> 4` for the first byte `b`. -/
def entryType (b : Byte) : Nat := (b.val &&& 0x70) >>> 4

/-- The function `readEntry`. -/
def readEntry (L : Lib) (packfile : Packfile) (reader : packEntryReader) (offset : Int) :
    EntryResult :=
  let (r0, b) := readByte reader 0
  let typ := entryType b
  if typ = 7 then
    match readEntrySize r0 b with
    | none => EntryResult.diverge
    | some (sz, r1) =>
      let (r2, ref) := readInto r1 20
      match inflate L r2 (i64 sz) with
      | Outcome.error e => EntryResult.error e packfile
      | Outcome.panic => EntryResult.panic
      | Outcome.diverge => EntryResult.diverge
      | Outcome.ok (buf, r3) =>
        match packfile.ObjectByHash ref with
        | ObjRef.panic => EntryResult.panic
        | ObjRef.nil =>
          EntryResult.ok { packfile with Deltas := packfile.Deltas ++ [{ Hash := ref, Delta := buf }] } r3
        | ObjRef.obj referenced => putPatched L packfile referenced buf r3
  else if typ = 6 then
    match readEntrySize r0 b with
    | none => EntryResult.diverge
    | some (sz, r1) =>
      match readNegativeOffset r1 b with
      | none => EntryResult.diverge
      | some (noffset, r2) =>
        match inflate L r2 (i64 sz) with
        | Outcome.error e => EntryResult.error e packfile
        | Outcome.panic => EntryResult.panic
        | Outcome.diverge => EntryResult.diverge
        | Outcome.ok (buf, r3) =>
          match packfile.ObjectByOffset (i64 (offset - noffset)) with
          | ObjRef.panic => EntryResult.panic
          | ObjRef.nil => EntryResult.error Err.noEntryAt packfile
          | ObjRef.obj referenced => putPatched L packfile referenced buf r3
  else if typ = 1 ∨ typ = 2 ∨ typ = 3 ∨ typ = 4 then
    match readEntrySize r0 b with
    | none => EntryResult.diverge
    | some (sz, r1) =>
      match inflate L r1 (i64 sz) with
      | Outcome.error e => EntryResult.error e packfile
      | Outcome.panic => EntryResult.panic
      | Outcome.diverge => EntryResult.diverge
      | Outcome.ok (buf, r2) =>
        EntryResult.ok (packfile.PutObject L { typ := objTypeOfCode typ, bytes := buf }) r2
  else EntryResult.error Err.invalidObjectTag packfile

/-- Outcome of `ReadPackfile`: the packfile and `nil` error, an error with the
packfile returned next to it (`none` for Go's `nil`), a panic, or no return. -/
inductive ReadResult where
  | ok (p : Packfile)
  | error (e : Err) (p : Option Packfile)
  | panic
  | diverge
  deriving DecidableEq, Repr

/-- Big-endian value of up to four bytes. -/
def beValue (bs : List Byte) : Nat :=
  bs.foldl (fun acc b => acc * 256 + b.val) 0

/-- State of the entry loop of `ReadPackfile` after it ran to its end. -/
structure LoopState where
  packfile : Packfile
  content : List Byte
  offset : Int
  deriving DecidableEq, Repr

/-- Outcome of the entry loop of `ReadPackfile`. -/
inductive LoopResult where
  | done (s : LoopState)
  | error (e : Err) (p : Packfile)
  | panic
  | diverge
  deriving DecidableEq, Repr

/-- The entry loop of `ReadPackfile`, by recursion on the number of entries
still to read. Each round reads one entry from a fresh `packEntryReader` on
`content`, records the offset, and cuts `Counter + 4` bytes off `content`
(a slice out of range when `content` is shorter). -/
def entryLoop (L : Lib) : Nat → LoopState → LoopResult
  | 0, s => LoopResult.done s
  | n + 1, s =>
    match readEntry L s.packfile { Counter := 0, reader := s.content } s.offset with
    | EntryResult.error e p => LoopResult.error e p
    | EntryResult.panic => LoopResult.panic
    | EntryResult.diverge => LoopResult.diverge
    | EntryResult.ok p r =>
      let p1 := { p with offsets := mapSet p.offsets s.offset ((p.Objects.length : Int) - 1) }
      if s.content.length < r.Counter + 4 then LoopResult.panic
      else
        entryLoop L n
          { packfile := p1,
            content := s.content.drop (r.Counter + 4),
            offset := i64 (s.offset + ((r.Counter + 4 : Nat) : Int)) }

/-- The loop of `ReadPackfile` over the pending deltas: `objs` and
`unresolved` are `packfile.Objects` and `unresolvedDeltas` as they grow;
`packfile` supplies the hash index, which the loop does not touch. `none` when
`ObjectByHash` panics. -/
def resolveLoop (L : Lib) (packfile : Packfile) :
    List Delta → List Object → List Delta → Option (List Object × List Delta)
  | [], objs, unresolved => some (objs, unresolved)
  | d :: rest, objs, unresolved =>
    match Packfile.ObjectByHash { packfile with Objects := objs } d.Hash with
    | ObjRef.panic => none
    | ObjRef.nil => resolveLoop L packfile rest objs (unresolved ++ [d])
    | ObjRef.obj ref =>
      resolveLoop L packfile rest
        (objs ++ [{ typ := ref.typ, bytes := (L.PatchDelta ref.bytes d.Delta).getD [] }])
        unresolved

/-- The bytes of the magic. -/
def magicPACK : List Byte := [0x50, 0x41, 0x43, 0x4b]

/-- The part of `ReadPackfile` from the version to the end of the entry loop,
on a buffer whose magic was read: version, number of objects, and the loop
over the rest from offset 12. -/
def readEntries (L : Lib) (buffer : List Byte) : LoopResult :=
  let r1 := (readInto { Counter := 0, reader := buffer } 4).1
  let version := beValue (r1.reader.take 4)
  let objects := beValue ((r1.reader.drop 4).take 4)
  let content := r1.reader.drop 8
  let packfile : Packfile :=
    { Version := version, Objects := [], Checksum := [], Deltas := [],
      offsets := [], hashes := [] }
  entryLoop L objects { packfile := packfile, content := content, offset := 12 }

/-- The function `ReadPackfile` on the bytes of its reader. -/
def ReadPackfile (L : Lib) (buffer : List Byte) : ReadResult :=
  if buffer.length < 20 then ReadResult.panic
  else
    let contentChecksum := L.SHA160 (buffer.take (buffer.length - 20))
    let magic := (readInto { Counter := 0, reader := buffer } 4).2
    if magic ≠ magicPACK then ReadResult.error Err.notAPackfile none
    else
      match readEntries L buffer with
      | LoopResult.error e p => ReadResult.error e (some p)
      | LoopResult.panic => ReadResult.panic
      | LoopResult.diverge => ReadResult.diverge
      | LoopResult.done s =>
        match resolveLoop L s.packfile s.packfile.Deltas s.packfile.Objects [] with
        | none => ReadResult.panic
        | some (objs, unresolved) =>
          let checksum := (readInto { Counter := 0, reader := s.content } 20).2
          let p : Packfile :=
            { s.packfile with Objects := objs, Deltas := unresolved, Checksum := checksum }
          if contentChecksum ≠ checksum then ReadResult.error Err.checksumMismatch (some p)
          else ReadResult.ok p

/-- The function `NewPackfile`. -/
def NewPackfile (objects : List Object) : Packfile :=
  { Version := 2, Objects := objects, Checksum := [], Deltas := [], offsets := [], hashes := [] }

/-- Go's conversion `byte(x)`. -/
def byteOf (x : Nat) : Byte := ⟨x % 256, Nat.mod_lt x (by decide)⟩

/-- The loop of `binary.PutUvarint`, by recursion on the number of rounds left;
a `uint64` takes at most ten bytes. -/
def PutUvarintLoop : Nat → Nat → List Byte
  | 0, x => [byteOf x]
  | fuel + 1, x =>
    if x ≥ 0x80 then byteOf (x % 256 ||| 0x80) :: PutUvarintLoop fuel (x >>> 7)
    else [byteOf x]

/-- Go's `binary.PutUvarint(buf, x)` for a `uint64` `x`: the bytes `buf[0:n]`. -/
def PutUvarint (x : Nat) : List Byte := PutUvarintLoop 10 (u64 x)

/-- The type code `writeEntry` ors into the first byte. -/
def typeCode : ObjType → Nat
  | ObjType.commit => 1
  | ObjType.tree => 2
  | ObjType.blob => 3
  | ObjType.tag => 4

/-- The header `writeEntry` writes before the compressed data: the byte `t`
and the bytes `szb`. -/
def entryHeader (o : Object) : List Byte :=
  let t := 0x80 ||| (typeCode o.typ <<< 4) ||| (byteOf (u64 o.bytes.length &&& 0x0f)).val
  let sz := o.bytes.length >>> 4
  byteOf t :: PutUvarint sz

/-- The `checksumWriter`: what was written to its SHA-1 state and what was
written to the writer under it. -/
structure checksumWriter where
  hash : List Byte
  writer : List Byte
  deriving DecidableEq, Repr

/-- The method `checksumWriter.Write`. -/
def checksumWriter.Write (w : checksumWriter) (p : List Byte) : checksumWriter :=
  { hash := w.hash ++ p, writer := w.writer ++ p }

/-- The method `checksumWriter.Sum`. -/
def checksumWriter.Sum (L : Lib) (w : checksumWriter) : List Byte := L.SHA160 w.hash

/-- The `bufio.Writer` of size 65519 on top of the `checksumWriter`: the bytes
it holds back and the writer under it. -/
structure bufWriter where
  buf : List Byte
  wr : checksumWriter
  deriving DecidableEq, Repr

/-- Go's `bufio.Writer.Flush`. -/
def bufWriter.Flush (w : bufWriter) : bufWriter :=
  { buf := [], wr := w.wr.Write w.buf }

/-- Go's `bufio.Writer.Write`. Bytes that fit stay in the buffer. Bytes that do
not fit an empty buffer are written through; with a buffer that holds
something, the buffer is filled and flushed, and the remaining bytes go to the
then empty buffer, or are written through when they do not fit it. -/
def bufWriter.Write (w : bufWriter) (p : List Byte) : bufWriter :=
  if p.length ≤ 65519 - w.buf.length then { w with buf := w.buf ++ p }
  else if w.buf = [] then { buf := [], wr := w.wr.Write p }
  else
    let w1 : bufWriter := { buf := [], wr := w.wr.Write (w.buf ++ p.take (65519 - w.buf.length)) }
    let q := p.drop (65519 - w.buf.length)
    if q.length ≤ 65519 then { w1 with buf := q }
    else { buf := [], wr := w1.wr.Write q }

/-- The function `writeEntry` on the `bufio.Writer`. -/
def writeEntry (L : Lib) (w : bufWriter) (o : Object) : bufWriter :=
  let w1 := w.Write (entryHeader o)
  w1.Write (L.zlibWrite o.bytes)

/-- Big-endian bytes of a `uint32`. -/
def be32 (x : Nat) : List Byte :=
  [byteOf (x / 2 ^ 24), byteOf (x / 2 ^ 16), byteOf (x / 2 ^ 8), byteOf x]

/-- The loop of `WritePackfile` over `p.Objects`. -/
def writeEntries (L : Lib) : List Object → bufWriter → bufWriter
  | [], w => w
  | o :: rest, w => writeEntries L rest (writeEntry L w o).Flush

/-- The function `WritePackfile` on an empty writer: the bytes written and
the packfile with its `Checksum` set. -/
def WritePackfile (L : Lib) (p : Packfile) : List Byte × Packfile :=
  let cw : checksumWriter := { hash := [], writer := [] }
  let w : bufWriter := { buf := [], wr := cw }
  let w := w.Write magicPACK
  let w := w.Write (be32 p.Version)
  let w := w.Write (be32 p.Objects.length)
  let w := w.Flush
  let w := writeEntries L p.Objects w
  let w := w.Flush
  let checksum := w.wr.Sum L
  let w := w.Write checksum
  let w := w.Flush
  (w.wr.writer, { p with Checksum := checksum })

/-! ## A small instance of the library, for evaluating the definitions -/

/-- Adler-32 of a byte list, as the four bytes that end a zlib stream. -/
def adler32 (bs : List Byte) : List Byte :=
  let ab := bs.foldl (fun (s : Nat × Nat) x =>
    ((s.1 + x.val) % 65521, (s.2 + (s.1 + x.val) % 65521) % 65521)) (1, 0)
  [byteOf (ab.2 / 256), byteOf ab.2, byteOf (ab.1 / 256), byteOf ab.1]

/-- A zlib stream that holds `bs` in one stored block: the header `78 01`, the
block byte `01`, the length and its complement (little-endian), the bytes, and
the Adler-32. -/
def storedWrite (bs : List Byte) : List Byte :=
  [0x78, 0x01, 0x01, byteOf bs.length, byteOf (bs.length / 256),
    byteOf (255 - bs.length % 256), byteOf (255 - bs.length / 256 % 256)]
    ++ bs ++ adler32 bs

/-- Whether a stream starts with a zlib header: deflate, no preset
dictionary, check bits right. -/
def storedNewReader (s : List Byte) : Bool :=
  match s with
  | cmf :: flg :: _ =>
    decide (cmf.val % 16 = 8 ∧ (cmf.val * 256 + flg.val) % 31 = 0 ∧ flg.val &&& 0x20 = 0)
  | _ => false

/-- One `Read` of `n` bytes from a stream whose first block is a final stored
block that is not empty: the first `n` bytes of the block; the reader has
then asked for the header, the block byte, the two lengths and the block, and
not yet for the Adler-32. -/
def storedRead (s : List Byte) (n : Nat) : Option (List Byte × Nat) :=
  match s with
  | _ :: _ :: blk :: l0 :: l1 :: n0 :: n1 :: data =>
    let len := l0.val + 256 * l1.val
    if blk.val &&& 0x07 = 1 ∧ n0.val + 256 * n1.val = 65535 - len ∧ 0 < len
        ∧ len ≤ data.length then
      some ((data.take len).take n, 7 + len)
    else none
  | _ => none

/-- A stand-in for SHA-1: twenty bytes of a polynomial checksum. -/
def polySum (bs : List Byte) : List Byte :=
  let h := bs.foldl (fun acc x => (acc * 0x100000001b3 + x.val + 1) % 2 ^ 160)
    0x6a09e667bb67ae853c6ef372a54ff53a510e527f
  (List.range 20).map (fun i => byteOf (h / 256 ^ (19 - i)))

/-- A miniature `PatchDelta`: the first byte of the delta must be the length
of the base (else the patch fails), the rest is appended to the base. -/
def appendPatch (base delta : List Byte) : Option (List Byte) :=
  match delta with
  | [] => none
  | n :: ins => if n.val = base.length then some (base ++ ins) else none

/-- A zlib stream with the framing a `zlib.Writer` gives to `Write(bs)`,
`Flush()`, `Close()`: the header `78 01`; a stored block with the bytes (none
for no bytes); the empty stored block `00 00 00 ff ff` that `Flush` emits as
sync marker; the empty final block `01 00 00 ff ff` that `Close` emits; the
Adler-32. -/
def flushWrite (bs : List Byte) : List Byte :=
  [0x78, 0x01]
    ++ (if bs = [] then []
        else [0x00, byteOf bs.length, byteOf (bs.length / 256),
              byteOf (255 - bs.length % 256), byteOf (255 - bs.length / 256 % 256)] ++ bs)
    ++ [0x00, 0x00, 0x00, 0xff, 0xff]
    ++ [0x01, 0x00, 0x00, 0xff, 0xff]
    ++ adler32 bs

/-- One `Read` of `n` bytes from a stream that starts with a stored block that
is not final and not empty, followed by an empty stored block: the reader
hands out what it has when it meets the empty block, having asked for the
header and the two blocks; what follows (the final block, the Adler-32) is
not asked for. A stream whose first block is final is read as by
`storedRead`. -/
def flushRead (s : List Byte) (n : Nat) : Option (List Byte × Nat) :=
  match s with
  | _ :: _ :: blk :: l0 :: l1 :: n0 :: n1 :: data =>
    let len := l0.val + 256 * l1.val
    if blk.val &&& 0x07 = 1 then storedRead s n
    else if blk.val &&& 0x07 = 0 ∧ n0.val + 256 * n1.val = 65535 - len ∧ 0 < len
        ∧ len ≤ data.length then
      match data.drop len with
      | s0 :: m0 :: m1 :: m2 :: m3 :: _ =>
        if s0.val &&& 0x07 = 0 ∧ m0.val = 0 ∧ m1.val = 0 ∧ m2.val = 255 ∧ m3.val = 255 then
          some ((data.take len).take n, 7 + len + 5)
        else none
      | _ => none
    else none
  | _ => none

/-- The instance. Reading: zlib streams of stored blocks, either one final
block (as in packs written by git) or the framing of `flushWrite`. Writing:
`flushWrite`. The polynomial checksum stands for SHA-1 and for object hashes
(over the type code and the bytes); `PatchDelta` is the miniature one; `make`
allocates up to `2 ^ 48` bytes, the limit of the 64-bit runtime. -/
def sampleLib : Lib :=
  { SHA160 := polySum,
    objectHash := fun o => polySum (byteOf (typeCode o.typ) :: o.bytes),
    PatchDelta := appendPatch,
    zlibNewReader := storedNewReader,
    zlibRead := flushRead,
    zlibWrite := flushWrite,
    makeLimit := 281474976710656,
    SHA160_length := by intro bs; simp [polySum] }

/-! ## Definitions used to state the properties -/

/-- The bytes of one entry as `writeEntry` writes them. -/
def entryBytes (L : Lib) (o : Object) : List Byte :=
  entryHeader o ++ L.zlibWrite o.bytes

/-- Everything written to a `bufWriter` so far, passed on or still held. -/
def bufWriter.all (w : bufWriter) : List Byte := w.wr.writer ++ w.buf

/-- Everything written to a `bufWriter` so far, hashed or still held. -/
def bufWriter.hashed (w : bufWriter) : List Byte := w.wr.hash ++ w.buf

/-- The bytes `WritePackfile` writes before the trailer. -/
def packBody (L : Lib) (p : Packfile) : List Byte :=
  magicPACK ++ be32 p.Version ++ be32 p.Objects.length
    ++ (p.Objects.map (entryBytes L)).flatten

/-- Value of a list of 7-bit groups, least significant group first. -/
def groupsValue : List Byte → Nat
  | [] => 0
  | b :: rest => b.val % 128 + 128 * groupsValue rest

/-- A byte list in which every byte but the last has bit 7 set and the last
has it clear. -/
def Chained : List Byte → Prop
  | [] => False
  | [b] => b.val < 128
  | b :: c :: rest => 128 ≤ b.val ∧ Chained (c :: rest)

/-- The sum of `(b & 0x7f) * 2 ^ shift` over a list of size bytes, the shift
starting at `shift` and growing by 7 from byte to byte. -/
def sizeSum : List Byte → Nat → Nat
  | [], _ => 0
  | b :: rest, shift => (b.val &&& 0x7f) * 2 ^ shift + sizeSum rest (shift + 7)

/-- The offset value as the claim writes it, over the natural numbers:
`v_0 = c0 & 0x7f` and `v_i = (v_(i-1) + 1) * 128 + (ci & 0x7f)`. -/
def ofsValue : List Byte → Nat
  | [] => 0
  | c0 :: cs => cs.foldl (fun v c => (v + 1) * 128 + (c.val &&& 0x7f)) (c0.val &&& 0x7f)

/-- The least value of an encoding of `k + 1` bytes. -/
def ofsLow : Nat → Nat
  | 0 => 0
  | k + 1 => (ofsLow k + 1) * 128

/-- Every index in the hash index of a packfile is an index of `objs`. -/
def HashesValid (hashes : List (List Byte × Int)) (objs : List Object) : Prop :=
  ∀ k v, mapGet hashes k = some v → 0 ≤ v ∧ v < (objs.length : Int)

/-- The bytes left after the entry loop when it ran to its end. -/
def LoopResult.rest : LoopResult → Option (List Byte)
  | LoopResult.done s => some s.content
  | _ => none

/-- A pack for the instance: `PACK`, version 2, the number of entries, the
entries, and the checksum of all that. -/
def samplePack (n : Nat) (entries : List Byte) : List Byte :=
  magicPACK ++ be32 2 ++ be32 n ++ entries ++ polySum (magicPACK ++ be32 2 ++ be32 n ++ entries)

/-- The blob `hi`. -/
def blobHi : Object := { typ := ObjType.blob, bytes := [104, 105] }

/-- The entry of the blob `hi`: `b2 00` and the stored stream. -/
def blobEntry : List Byte := [0xb2, 0x00] ++ storedWrite [104, 105]

/-- A `REF_DELTA` entry of size 1 whose base hash (twenty bytes `11`) belongs
to no object; its delta is the byte `09`. -/
def refUnknownEntry : List Byte := [0x71] ++ List.replicate 20 0x11 ++ storedWrite [9]

/-- An `OFS_DELTA` entry of size 1 whose base is 33 bytes back; its delta is
the byte `09`. -/
def ofsEntry : List Byte := [0x61, 0x21] ++ storedWrite [9]

/-- A `REF_DELTA` entry of size 1 on the blob `hi` whose delta, the byte `09`,
does not fit the base (the miniature `PatchDelta` fails on it). -/
def refBadEntry : List Byte := [0x71] ++ sampleLib.objectHash blobHi ++ storedWrite [9]

/-- A `REF_DELTA` entry of size 3 on the blob `hi` whose delta `02 21 22`
appends two bytes. -/
def refGoodEntry : List Byte := [0x73] ++ sampleLib.objectHash blobHi ++ storedWrite [2, 33, 34]

/-- The base of a pending delta as the pass after the entry loop finds it: the
object at the index the hash index gives for the delta's hash. -/
def baseOf (hashes : List (List Byte × Int)) (objs : List Object) (d : Delta) : Option Object :=
  match mapGet hashes d.Hash with
  | none => none
  | some index => objs.get? index.toNat

/-- The object the pass after the entry loop appends for a pending delta with
base `ref`: of the variant of `ref`, with the bytes `PatchDelta` returned, none
when it returned `nil`. -/
def resolvedObject (L : Lib) (ref : Object) (d : Delta) : Object :=
  { typ := ref.typ, bytes := (L.PatchDelta ref.bytes d.Delta).getD [] }

/-- An object is retrievable by its hash from a packfile: `ObjectByHash(o.Hash())`
returns an object, and that object has the hash of `o`. -/
def Retrievable (L : Lib) (r : Packfile) (o : Object) : Prop :=
  ∃ found, r.ObjectByHash (L.objectHash o) = ObjRef.obj found
    ∧ L.objectHash found = L.objectHash o

/-- The packfile read from a `REF_DELTA` on the blob `hi` followed by the blob:
the blob, stored by the entry loop, and the patched blob, appended by the pass
over the pending deltas. -/
def resolvedPack : Packfile :=
  { Version := 2, Objects := [blobHi, { typ := ObjType.blob, bytes := [104, 105, 33, 34] }],
    Checksum := polySum (magicPACK ++ be32 2 ++ be32 2 ++ (refGoodEntry ++ blobEntry)),
    Deltas := [], offsets := [(47, 0), (12, -1)],
    hashes := [(sampleLib.objectHash blobHi, 0)] }

/-- A pack cut short inside the size bytes of its only entry: the first byte
`b0` of a blob entry and eight size bytes `80`. -/
def cutInSize : List Byte := magicPACK ++ be32 2 ++ be32 1 ++ 0xb0 :: List.replicate 8 0x80

/-- A pack cut short inside the negative offset of its only entry: the first
byte `e0` of an `OFS_DELTA` entry, the size byte `00` and seven offset bytes
`80`. -/
def cutInOffset : List Byte :=
  magicPACK ++ be32 2 ++ be32 1 ++ 0xe0 :: 0x00 :: List.replicate 7 0x80

end Pack

/-!
# gitchain: blocks, envelopes, transactions (`block/block.go`, `transaction/*.go`)

The ledger side. Hashes and strings are byte lists; Go's `uint32` and `int64`
are `Nat` and `Int`. What the code takes from outside (SHA-256, gob, the
Merkle tree, ECDSA and the key encoding) is collected in the structure `Ext`.
-/

namespace Ledger

open Pack (Byte byteOf mapGet mapSet)

/-- Modelled from the spec: `types.Hash`, declared in `types/` (not among the
sources): an opaque byte string, 32 bytes for ledger objects. -/
abbrev Hash := List Byte

/-- Modelled from the spec: `types.EmptyHash()`, declared in `types/` (not among
the sources): the empty hash is 32 zero bytes. -/
def EmptyHash : Hash := List.replicate 32 0

/-- The struct `ReferenceUpdate` of `rut.go`; the strings are byte lists and
`repository.Ref` is the byte string of an object id. -/
structure ReferenceUpdate where
  Version : Nat
  Repository : List Byte
  Ref : List Byte
  Old : List Byte
  New : List Byte
  deriving DecidableEq, Repr

/-- The values behind the interface `T`. `referenceUpdate` is the struct of
`rut.go`. Modelled from the spec: the three name transactions, declared in
`transaction/` files that are not among the sources, with the fields the
spec lists; like `ReferenceUpdate` they hand `Hash` and `Encode` to the
functions `hash` and `encode` of `transaction.go`. -/
inductive Transaction where
  | nameReservation (version : Nat) (hashedName : List Byte)
  | nameAllocation (version : Nat) (name : List Byte) (rand : List Byte)
  | nameDeallocation (version : Nat) (name : List Byte)
  | referenceUpdate (tx : ReferenceUpdate)
  deriving DecidableEq, Repr

/-- The struct `Envelope`. -/
structure Envelope where
  PreviousEnvelopeHash : Hash
  SignatureR : List Byte
  SignatureS : List Byte
  PublicKey : List Byte
  NextPublicKey : List Byte
  Transaction : Transaction
  deriving DecidableEq, Repr

/-- The struct `Block`. -/
structure Block where
  Version : Nat
  PreviousBlockHash : Hash
  MerkleRootHash : Hash
  Timestamp : Int
  Bits : Nat
  Nonce : Nat
  Transactions : List Envelope
  deriving DecidableEq, Repr

/-- Go's `ecdsa.PublicKey`, on a fixed curve: the point. -/
structure PublicKey where
  X : Nat
  Y : Nat
  deriving DecidableEq, Repr

/-- Go's `ecdsa.PrivateKey`. -/
structure PrivateKey where
  PublicKey : PublicKey
  D : Nat
  deriving DecidableEq, Repr

/-- What the ledger code takes from outside.
* `SHA256 bs`: `fastsha256.Sum256`.
* `gobEncode t`: the bytes of `gob.NewEncoder(buf).Encode(t)` for a transaction
  `t` behind the interface `T` (the concrete value is encoded).
* `gobEncodeInterface t`: the bytes of `enc.Encode(&t)` (the value is encoded
  as an interface value) and whether `Encode` returned an error.
* `gobEncodeEnvelope e`: the bytes `Envelope.Encode` returns.
* `merkleTree data`: `tree.Generate(data, fastsha256.New())` and
  `tree.Root().Hash` of go-merkle; `none` when `Generate` returns an error.
* `EncodeECDSAPublicKey`, `DecodeECDSAPublicKey`: the functions of `keys/`;
  `none` when they return an error.
* `ecdsaSign key digest rnd`: `ecdsa.Sign` with what it draws from
  `rand.Reader` as `rnd`; `none` when it returns an error, otherwise `r`, `s`.
* `ecdsaVerify`: `ecdsa.Verify`.
* `SHA256_length`: a SHA-256 digest has 32 bytes. -/
structure Ext where
  SHA256 : List Byte → List Byte
  gobEncode : Transaction → List Byte
  gobEncodeInterface : Transaction → List Byte × Bool
  gobEncodeEnvelope : Envelope → List Byte
  merkleTree : List (List Byte) → Option Hash
  EncodeECDSAPublicKey : PublicKey → Option (List Byte)
  DecodeECDSAPublicKey : List Byte → Option PublicKey
  ecdsaSign : PrivateKey → List Byte → Nat → Option (Nat × Nat)
  ecdsaVerify : PublicKey → List Byte → Nat → Nat → Bool
  SHA256_length : ∀ bs, (SHA256 bs).length = 32

/-- Modelled from the spec: `util.SHA256`, declared in `util/` (not among the
sources): the SHA-256 digest as a byte slice. -/
def utilSHA256 (X : Ext) (bs : List Byte) : List Byte := X.SHA256 bs

/-- Little-endian bytes of an unsigned integer of `width` bytes. -/
def leBytes (width : Nat) (x : Nat) : List Byte :=
  (List.range width).map (fun i => byteOf (x / 256 ^ i))

/-- Go's `binary.Write(buf, binary.LittleEndian, x)` for a `uint32`: the bytes
appended. -/
def le32 (x : Nat) : List Byte := leBytes 4 (x % 2 ^ 32)

/-- Go's `binary.Write(buf, binary.LittleEndian, x)` for an `int64`: the bytes
appended, two's complement. -/
def le64 (x : Int) : List Byte := leBytes 8 (x % 2 ^ 64).toNat

/-- The method `Block.Hash`: `buf` and `buf1` are the two buffers. -/
def Block.Hash (X : Ext) (b : Block) : Hash :=
  let buf : List Byte := []
  let buf1 : List Byte := []
  let buf := buf ++ b.PreviousBlockHash
  let buf := buf ++ b.MerkleRootHash
  let buf := buf ++ le32 b.Version
  let buf := buf ++ le64 b.Timestamp
  let buf := buf ++ le32 b.Bits
  let buf := buf ++ le32 b.Nonce
  let hash := X.SHA256 buf
  let buf1 := buf1 ++ hash
  let hash := X.SHA256 buf1
  let buf1 : List Byte := []
  let buf1 := buf1 ++ hash
  buf1

/-- The function `merkleRoot` of `block.go`: the hash and whether there is an
error. -/
def merkleRoot (X : Ext) (data : List (List Byte)) : Hash × Bool :=
  match X.merkleTree data with
  | none => (EmptyHash, true)
  | some h => (h, false)

/-- The constant `BLOCK_VERSION`. -/
def BLOCK_VERSION : Nat := 1

/-- The function `NewBlock`; `now` is `time.Now().UTC().Unix()`. `none` when it
returns an error (and no block). -/
def NewBlock (X : Ext) (now : Int) (previousBlockHash : Hash) (bits : Nat)
    (transactions : List Envelope) : Option Block :=
  let encodedTransactions := transactions.map X.gobEncodeEnvelope
  let (merkleRootHash, err) :=
    if encodedTransactions.length > 0 then merkleRoot X encodedTransactions
    else (EmptyHash, false)
  if err then none
  else some
    { Version := BLOCK_VERSION,
      PreviousBlockHash := previousBlockHash,
      MerkleRootHash := merkleRootHash,
      Timestamp := now,
      Bits := bits,
      Nonce := 0,
      Transactions := transactions }

/-- The function `hash` of `transaction.go`. -/
def hash (X : Ext) (t : Transaction) : List Byte :=
  let encoded := X.gobEncode t
  let buf : List Byte := []
  buf ++ X.SHA256 encoded

/-- The function `encode` of `transaction.go`: the bytes and whether there is an
error. -/
def encode (X : Ext) (t : Transaction) : List Byte × Bool :=
  X.gobEncodeInterface t

/-- The method `Hash` of the interface `T`. -/
def Transaction.Hash (X : Ext) (t : Transaction) : Hash := hash X t

/-- The method `Encode` of the interface `T`. -/
def Transaction.Encode (X : Ext) (t : Transaction) : List Byte × Bool := encode X t

/-- The constant `REFERENCE_UPDATE_VERSION`. -/
def REFERENCE_UPDATE_VERSION : Nat := 1

/-- The function `NewReferenceUpdate`. -/
def NewReferenceUpdate (repository ref old new : List Byte) : ReferenceUpdate :=
  { Version := REFERENCE_UPDATE_VERSION, Repository := repository, Ref := ref,
    Old := old, New := new }

/-- The method `ReferenceUpdate.Valid`. -/
def ReferenceUpdate.Valid (txn : ReferenceUpdate) : Bool :=
  txn.Version == REFERENCE_UPDATE_VERSION && decide (txn.Repository.length > 0)
    && decide (txn.Ref.length > 0)

/-- The method `ReferenceUpdate.Encode`. -/
def ReferenceUpdate.Encode (X : Ext) (txn : ReferenceUpdate) : List Byte × Bool :=
  encode X (Transaction.referenceUpdate txn)

/-- The method `ReferenceUpdate.Hash`. -/
def ReferenceUpdate.Hash (X : Ext) (txn : ReferenceUpdate) : Hash :=
  hash X (Transaction.referenceUpdate txn)

/-- The method `Envelope.Hash`. -/
def Envelope.Hash (X : Ext) (e : Envelope) : Hash :=
  utilSHA256 X ((e.Transaction.Hash X ++ e.PreviousEnvelopeHash) ++ e.NextPublicKey)

/-- The loop behind Go's `big.Int.Bytes`, by recursion on the rounds left: the
base-256 digits of `n` are put in front of `acc`, last digit first. -/
def bigBytesLoop : Nat → Nat → List Byte → List Byte
  | 0, _, acc => acc
  | fuel + 1, n, acc =>
    if n = 0 then acc else bigBytesLoop fuel (n / 256) (byteOf n :: acc)

/-- Go's `big.Int.Bytes` for a number that is not negative: its big-endian
bytes without leading zeros. A number has no more digits than its value. -/
def bigBytes (n : Nat) : List Byte := bigBytesLoop n n []

/-- Go's `big.Int.SetBytes`: the number with these big-endian bytes. -/
def bigSetBytes (bs : List Byte) : Nat := bs.foldl (fun acc b => acc * 256 + b.val) 0

/-- The method `Envelope.Sign`: the envelope after the call and whether the
call returned `nil` (no error). -/
def Envelope.Sign (X : Ext) (e : Envelope) (privateKey : PrivateKey) (rnd : Nat) :
    Envelope × Bool :=
  match X.EncodeECDSAPublicKey privateKey.PublicKey with
  | none => (e, false)
  | some pubkey =>
    let e1 : Envelope :=
      if e.NextPublicKey.length = 0 ∨ e.NextPublicKey = e.PublicKey then
        { e with NextPublicKey := pubkey }
      else e
    let e2 : Envelope := { e1 with PublicKey := pubkey }
    match X.ecdsaSign privateKey (e2.Hash X) rnd with
    | none => (e2, false)
    | some (sigR, sigS) =>
      ({ e2 with SignatureR := bigBytes sigR, SignatureS := bigBytes sigS }, true)

/-- Outcome of `Envelope.Verify`: the two values it returns (the error as
whether there is one) and its receiver after the call. -/
structure VerifyResult where
  ok : Bool
  err : Bool
  receiver : Envelope
  deriving DecidableEq, Repr

/-- The method `Envelope.Verify`. -/
def Envelope.Verify (X : Ext) (e : Envelope) : VerifyResult :=
  match X.DecodeECDSAPublicKey e.PublicKey with
  | none => { ok := false, err := true, receiver := e }
  | some publicKey =>
    let r := bigSetBytes e.SignatureR
    let s := bigSetBytes e.SignatureS
    { ok := X.ecdsaVerify publicKey (e.Hash X) r s, err := false, receiver := e }

/-! ## The storage engine -/

/-- Modelled from the spec: the tables of the storage engine of `db/`, of which
only a test file is among the sources. Each table is an association list,
newest binding first. The tables `repo` and `repo-list` and the side effects
of transactions on them are left out; nothing here reads them. Failures of
the key/value store are left out as well. -/
structure DB where
  block : List (Hash × Block)
  txBlock : List (Hash × Hash)
  txNext : List (Hash × Hash)
  lastBlock : Option Hash
  prevEnvelope : List (List Byte × Hash)
  pendingTx : List (Hash × Envelope)
  deriving DecidableEq, Repr

/-- Modelled from the spec: the store of `NewDB` on a fresh file, every table
empty. -/
def emptyDB : DB :=
  { block := [], txBlock := [], txNext := [], lastBlock := none, prevEnvelope := [],
    pendingTx := [] }

/-- Modelled from the spec: what `PutBlock` does for one contained envelope:
it writes `tx-block`, sets `tx-next[previous_tx] := this_tx`, sets
`prev-envelope[public_key] := envelope_hash` and removes the envelope from
`pending-tx`. The state is the store and the previous transaction, if any. -/
def putEnvelope (X : Ext) (blockHash : Hash) (s : DB × Option Hash) (e : Envelope) :
    DB × Option Hash :=
  ({ s.1 with
      txBlock := mapSet s.1.txBlock (e.Hash X) blockHash,
      txNext :=
        (match s.2 with
         | some previous => mapSet s.1.txNext previous (e.Hash X)
         | none => s.1.txNext),
      prevEnvelope := mapSet s.1.prevEnvelope e.PublicKey (e.Hash X),
      pendingTx := s.1.pendingTx.filter (fun kv => kv.1 ≠ e.Hash X) },
   some (e.Hash X))

/-- Modelled from the spec: the transaction before the first one of a block
(`tx-next` is chronological within, then across blocks): the last transaction
of the block stored under `PreviousBlockHash`, if there is one. -/
def previousTransaction (X : Ext) (db : DB) (b : Block) : Option Hash :=
  match mapGet db.block b.PreviousBlockHash with
  | some previousBlock => previousBlock.Transactions.getLast?.map (Envelope.Hash X)
  | none => none

/-- Modelled from the spec: `PutBlock(block, confirmed)` of `db/`: it writes the
block, goes through the envelopes in order, and advances `last-block` if
`confirmed`. -/
def PutBlock (X : Ext) (db : DB) (b : Block) (confirmed : Bool) : DB :=
  let db1 := { db with block := mapSet db.block (b.Hash X) b }
  let s := b.Transactions.foldl (putEnvelope X (b.Hash X)) (db1, previousTransaction X db b)
  if confirmed then { s.1 with lastBlock := some (b.Hash X) } else s.1

/-- Modelled from the spec: `PutTransaction` of `db/`, which puts an envelope in
the mempool. -/
def PutTransaction (X : Ext) (db : DB) (e : Envelope) : DB :=
  { db with pendingTx := mapSet db.pendingTx (e.Hash X) e }

/-- Modelled from the spec: `DeleteTransaction` of `db/`, which takes an envelope
out of the mempool. -/
def DeleteTransaction (db : DB) (hash : Hash) : DB :=
  { db with pendingTx := db.pendingTx.filter (fun kv => kv.1 ≠ hash) }

/-- Modelled from the spec: `GetNextTransactionHash(hash)` of `db/`: `tx-next[hash]`
or the empty hash, and whether there is an error. -/
def GetNextTransactionHash (db : DB) (hash : Hash) : Hash × Bool :=
  match mapGet db.txNext hash with
  | some next => (next, false)
  | none => (EmptyHash, false)

/-- Modelled from the spec: `GetPreviousEnvelopeHashForPublicKey(key)` of `db/`:
`prev-envelope[encode(key)]` or `nil`, and whether there is an error (when the
key has no encoding). -/
def GetPreviousEnvelopeHashForPublicKey (X : Ext) (db : DB) (key : PublicKey) :
    Option Hash × Bool :=
  match X.EncodeECDSAPublicKey key with
  | none => (none, true)
  | some k => (mapGet db.prevEnvelope k, false)

/-- A call that writes to the store. -/
inductive Op where
  | putBlock (b : Block) (confirmed : Bool)
  | putTransaction (e : Envelope)
  | deleteTransaction (hash : Hash)
  deriving DecidableEq, Repr

/-- The store after one call. -/
def Op.apply (X : Ext) (db : DB) : Op → DB
  | Op.putBlock b confirmed => PutBlock X db b confirmed
  | Op.putTransaction e => PutTransaction X db e
  | Op.deleteTransaction hash => DeleteTransaction db hash

/-- The store after a sequence of calls on the empty store. -/
def run (X : Ext) (ops : List Op) : DB := ops.foldl (Op.apply X) emptyDB

/-! ## A small instance of what comes from outside, for evaluating the definitions -/

/-- A stand-in for SHA-256: 32 bytes of a polynomial checksum. -/
def polySum256 (bs : List Byte) : List Byte :=
  let h := bs.foldl (fun acc x => (acc * 0x100000001b3 + x.val + 1) % 2 ^ 256)
    0x6a09e667bb67ae853c6ef372a54ff53a510e527f9b05688c1f83d9ab5be0cd19
  (List.range 32).map (fun i => byteOf (h / 256 ^ (31 - i)))

/-- A byte string with its length in front. -/
def withLength (bs : List Byte) : List Byte := byteOf bs.length :: bs

/-- A stand-in for the gob encoding of a transaction value: a tag for the
variant, then the fields in declaration order. -/
def fieldBytes : Transaction → List Byte
  | Transaction.nameReservation v h => [1, byteOf v] ++ withLength h
  | Transaction.nameAllocation v n r => [2, byteOf v] ++ withLength n ++ withLength r
  | Transaction.nameDeallocation v n => [3, byteOf v] ++ withLength n
  | Transaction.referenceUpdate tx =>
    [4, byteOf tx.Version] ++ withLength tx.Repository ++ withLength tx.Ref
      ++ withLength tx.Old ++ withLength tx.New

/-- The name under which gob sends a value inside an interface: the name the
type was registered with. -/
def registeredName : Transaction → List Byte
  | Transaction.nameReservation _ _ => [42, 78, 82]
  | Transaction.nameAllocation _ _ _ => [42, 78, 65]
  | Transaction.nameDeallocation _ _ => [42, 78, 68]
  | Transaction.referenceUpdate _ => [42, 82, 85]

/-- A stand-in for the gob encoding of a transaction as an interface value:
the registered name, then the encoding of the value. -/
def interfaceBytes (t : Transaction) : List Byte × Bool :=
  (withLength (registeredName t) ++ fieldBytes t, false)

/-- A stand-in for the gob encoding of an envelope. -/
def envelopeBytes (e : Envelope) : List Byte :=
  withLength e.PreviousEnvelopeHash ++ withLength e.SignatureR ++ withLength e.SignatureS
    ++ withLength e.PublicKey ++ withLength e.NextPublicKey ++ (interfaceBytes e.Transaction).1

/-- A stand-in for the Merkle tree: the leaves are hashed and folded from the
left; no root for no leaves. -/
def foldRoot (data : List (List Byte)) : Option Hash :=
  match data with
  | [] => none
  | d :: rest => some (rest.foldl (fun acc x => polySum256 (acc ++ polySum256 x)) (polySum256 d))

/-- A stand-in for the key encoding: the two coordinates as one byte each, for
coordinates below 256. -/
def twoByteKey (k : PublicKey) : Option (List Byte) :=
  if k.X < 256 ∧ k.Y < 256 then some [byteOf k.X, byteOf k.Y] else none

/-- The decoding that goes with `twoByteKey`. -/
def twoByteKeyDecode (bs : List Byte) : Option PublicKey :=
  match bs with
  | [x, y] => some { X := x.val, Y := y.val }
  | _ => none

/-- A stand-in for ECDSA signing, which reads only the secret `D` of the key:
`r` comes from the random number, `s` from the digest, `D` and `r`. The public
key that belongs to `D` has `X = 2 * D - 1`. -/
def toySign (key : PrivateKey) (digest : List Byte) (rnd : Nat) : Option (Nat × Nat) :=
  some (rnd % 65521 + 1,
        (bigSetBytes digest + (2 * key.D - 1) * (rnd % 65521 + 1)) % 65521 + 1)

/-- The verification that goes with `toySign`: it accepts what was signed with
the secret that belongs to the public key. -/
def toyVerify (key : PublicKey) (digest : List Byte) (r s : Nat) : Bool :=
  decide (s = (bigSetBytes digest + key.X * r) % 65521 + 1)

/-- The instance. -/
def sampleExt : Ext :=
  { SHA256 := polySum256,
    gobEncode := fieldBytes,
    gobEncodeInterface := interfaceBytes,
    gobEncodeEnvelope := envelopeBytes,
    merkleTree := foldRoot,
    EncodeECDSAPublicKey := twoByteKey,
    DecodeECDSAPublicKey := twoByteKeyDecode,
    ecdsaSign := toySign,
    ecdsaVerify := toyVerify,
    SHA256_length := by intro bs; simp [polySum256] }

/-- A reference update of the repository `r` and the ref `m`. -/
def sampleUpdate : ReferenceUpdate := NewReferenceUpdate [114] [109] [1, 2] [3, 4]

/-- A private key of the instance. -/
def sampleKey : PrivateKey := { PublicKey := { X := 5, Y := 7 }, D := 3 }

/-- An envelope on the empty hash that holds `sampleUpdate`, not yet signed. -/
def sampleEnvelope : Envelope :=
  { PreviousEnvelopeHash := EmptyHash, SignatureR := [], SignatureS := [], PublicKey := [],
    NextPublicKey := [], Transaction := Transaction.referenceUpdate sampleUpdate }

/-- Three envelopes that differ in the ref they update; the first and the third
carry the public key `05 07`, the second the public key `09 09`. -/
def envelopeA : Envelope :=
  { sampleEnvelope with PublicKey := [5, 7], NextPublicKey := [5, 7] }

/-- The second of the three envelopes. -/
def envelopeB : Envelope :=
  { sampleEnvelope with
      PublicKey := [9, 9], NextPublicKey := [9, 9],
      Transaction := Transaction.referenceUpdate (NewReferenceUpdate [114] [110] [1, 2] [3, 4]) }

/-- The third of the three envelopes. -/
def envelopeC : Envelope :=
  { sampleEnvelope with
      PublicKey := [5, 7], NextPublicKey := [5, 7],
      Transaction := Transaction.referenceUpdate (NewReferenceUpdate [114] [111] [1, 2] [3, 4]) }

/-- A block on the empty hash with the given envelopes. -/
def sampleBlock (transactions : List Envelope) : Block :=
  { Version := 1, PreviousBlockHash := EmptyHash, MerkleRootHash := EmptyHash, Timestamp := 0,
    Bits := 0x1d00ffff, Nonce := 0, Transactions := transactions }

/-- Little-endian value of a byte list. -/
def leValue (bs : List Byte) : Nat := bs.foldr (fun b acc => b.val + 256 * acc) 0

end Ledger

namespace Pack

/-! ## The writer -/

theorem bufWriter.all_Write (w : bufWriter) (p : List Byte) : (w.Write p).all = w.all ++ p := by
  unfold bufWriter.Write bufWriter.all
  by_cases h1 : p.length ≤ 65519 - w.buf.length
  · simp [h1]
  · by_cases h2 : w.buf = []
    · simp only [h1, if_false, if_pos h2]
      simp [checksumWriter.Write, h2]
    · simp only [h1, h2, if_false]
      split_ifs <;> simp [checksumWriter.Write]

theorem bufWriter.hashed_Write (w : bufWriter) (p : List Byte) :
    (w.Write p).hashed = w.hashed ++ p := by
  unfold bufWriter.Write bufWriter.hashed
  by_cases h1 : p.length ≤ 65519 - w.buf.length
  · simp [h1]
  · by_cases h2 : w.buf = []
    · simp only [h1, if_false, if_pos h2]
      simp [checksumWriter.Write, h2]
    · simp only [h1, h2, if_false]
      split_ifs <;> simp [checksumWriter.Write]

theorem bufWriter.all_Flush (w : bufWriter) : w.Flush.all = w.all := by
  simp [bufWriter.Flush, bufWriter.all, checksumWriter.Write]

theorem bufWriter.hashed_Flush (w : bufWriter) : w.Flush.hashed = w.hashed := by
  simp [bufWriter.Flush, bufWriter.hashed, checksumWriter.Write]

theorem bufWriter.buf_Flush (w : bufWriter) : w.Flush.buf = [] := rfl

theorem all_writeEntry (L : Lib) (w : bufWriter) (o : Object) :
    (writeEntry L w o).all = w.all ++ entryBytes L o := by
  simp [writeEntry, bufWriter.all_Write, entryBytes]

theorem hashed_writeEntry (L : Lib) (w : bufWriter) (o : Object) :
    (writeEntry L w o).hashed = w.hashed ++ entryBytes L o := by
  simp [writeEntry, bufWriter.hashed_Write, entryBytes]

theorem all_writeEntries (L : Lib) (objs : List Object) (w : bufWriter) :
    (writeEntries L objs w).all = w.all ++ (objs.map (entryBytes L)).flatten := by
  induction objs generalizing w with
  | nil => simp [writeEntries]
  | cons o rest ih =>
    simp [writeEntries, ih, bufWriter.all_Flush, all_writeEntry]

theorem hashed_writeEntries (L : Lib) (objs : List Object) (w : bufWriter) :
    (writeEntries L objs w).hashed = w.hashed ++ (objs.map (entryBytes L)).flatten := by
  induction objs generalizing w with
  | nil => simp [writeEntries]
  | cons o rest ih =>
    simp [writeEntries, ih, bufWriter.hashed_Flush, hashed_writeEntry]

theorem bufWriter.writer_Flush (w : bufWriter) : w.Flush.wr.writer = w.all := by
  simp [bufWriter.Flush, bufWriter.all, checksumWriter.Write]

theorem bufWriter.hash_Flush (w : bufWriter) : w.Flush.wr.hash = w.hashed := by
  simp [bufWriter.Flush, bufWriter.hashed, checksumWriter.Write]

theorem beValue_be32 (x : Nat) : beValue (be32 x) = x % 2 ^ 32 := by
  simp only [beValue, be32, byteOf, List.foldl]
  omega

/-- The bytes and the checksum of `WritePackfile` in closed form. -/
theorem WritePackfile_eq (L : Lib) (p : Packfile) :
    WritePackfile L p =
      (packBody L p ++ L.SHA160 (packBody L p),
       { p with Checksum := L.SHA160 (packBody L p) }) := by
  have hsum : ∀ w : bufWriter, w.Flush.wr.Sum L = L.SHA160 w.hashed := by
    intro w
    simp [checksumWriter.Sum, bufWriter.hash_Flush]
  simp only [WritePackfile, bufWriter.writer_Flush, bufWriter.all_Write, bufWriter.all_Flush,
    all_writeEntries, hsum, hashed_writeEntries, bufWriter.hashed_Flush, bufWriter.hashed_Write]
  simp [bufWriter.all, bufWriter.hashed, packBody]

/-- C4: the bytes `WritePackfile` emits are `PACK`, the version and the number of
objects as four big-endian bytes each, the entries of `p.Objects` in list
order, and a trailer of twenty bytes that is the SHA-1 of everything before it;
the packfile's `Checksum` is then that trailer, and `NewPackfile` sets version 2. -/
theorem WritePackfile_layout (L : Lib) (p : Packfile) (objects : List Object) :
    (WritePackfile L p).1 =
        magicPACK ++ be32 p.Version ++ be32 p.Objects.length
          ++ (p.Objects.map (fun o => entryHeader o ++ L.zlibWrite o.bytes)).flatten
          ++ (WritePackfile L p).2.Checksum
      ∧ (WritePackfile L p).2.Checksum =
          L.SHA160 ((WritePackfile L p).1.take ((WritePackfile L p).1.length - 20))
      ∧ (WritePackfile L p).2.Checksum.length = 20
      ∧ (WritePackfile L p).2 = { p with Checksum := (WritePackfile L p).2.Checksum }
      ∧ magicPACK = [0x50, 0x41, 0x43, 0x4b]
      ∧ beValue (be32 p.Version) = p.Version % 2 ^ 32
      ∧ beValue (be32 p.Objects.length) = p.Objects.length % 2 ^ 32
      ∧ (be32 p.Version).length = 4 ∧ (be32 p.Objects.length).length = 4
      ∧ (NewPackfile objects).Version = 2 ∧ (NewPackfile objects).Objects = objects := by
  rw [WritePackfile_eq]
  refine ⟨rfl, ?_, L.SHA160_length _, rfl, rfl, beValue_be32 _, beValue_be32 _, rfl, rfl, rfl, rfl⟩
  simp [L.SHA160_length]

/-! ## The reader: short input -/

/-- C2 (the code at the failing input): on the empty stream `ReadPackfile`
panics, whatever the library does: `buffer[0 : len(buffer)-20]` is sliced
before the magic is looked at. -/
theorem ReadPackfile_empty_panics (L : Lib) : ReadPackfile L [] = ReadResult.panic := by
  simp [ReadPackfile]

/-- Every stream shorter than twenty bytes makes `ReadPackfile` panic. -/
theorem ReadPackfile_short_panics (L : Lib) (buffer : List Byte) (h : buffer.length < 20) :
    ReadPackfile L buffer = ReadResult.panic := by
  simp [ReadPackfile, h]

/-- From twenty bytes on, a stream that does not start with `PACK` gets the
not-a-packfile error and no packfile. -/
theorem ReadPackfile_not_PACK (L : Lib) (buffer : List Byte) (h : 20 ≤ buffer.length)
    (hm : buffer.take 4 ≠ magicPACK) :
    ReadPackfile L buffer = ReadResult.error Err.notAPackfile none := by
  have h4 : (buffer.take 4).length = 4 := by simp; omega
  simp [ReadPackfile, readInto, Nat.not_lt.mpr h, h4, hm]

/-! ## Entry headers -/

set_option maxRecDepth 4000 in
theorem byte_or_0x80 : ∀ y : Fin 256,
    (y.val ||| 0x80) < 256 ∧ 128 ≤ (y.val ||| 0x80) ∧ (y.val ||| 0x80) % 128 = y.val % 128 := by
  decide

set_option maxRecDepth 4000 in
theorem entryType_eq : ∀ b : Byte, entryType b = b.val / 16 % 8 := by
  unfold entryType
  decide

theorem first_byte_bits : ∀ c < 5, ∀ m < 16,
    (0x80 ||| (c <<< 4) ||| m) = 128 + 16 * c + m := by
  decide

theorem Chained_cons (b : Byte) (l : List Byte) (hb : 128 ≤ b.val) (hl : Chained l) :
    Chained (b :: l) := by
  cases l with
  | nil => exact absurd hl (by simp [Chained])
  | cons c rest => exact ⟨hb, hl⟩

/-- The loop of `PutUvarint` with enough rounds writes the 7-bit groups of `x`,
least significant first, with bit 7 set on all but the last. -/
theorem PutUvarintLoop_spec (fuel x : Nat) (hx : x < 128 ^ (fuel + 1)) :
    Chained (PutUvarintLoop fuel x) ∧ groupsValue (PutUvarintLoop fuel x) = x := by
  induction fuel generalizing x with
  | zero =>
    have hx' : x < 128 := by simpa using hx
    have h256 : x % 256 = x := Nat.mod_eq_of_lt (by omega)
    simp only [PutUvarintLoop, Chained, groupsValue, byteOf, h256]
    omega
  | succ f ih =>
    unfold PutUvarintLoop
    by_cases h : x ≥ 0x80
    · have hdiv : x >>> 7 < 128 ^ (f + 1) := by
        rw [Nat.shiftRight_eq_div_pow]
        apply Nat.div_lt_of_lt_mul
        have : 128 ^ (f + 1 + 1) = 2 ^ 7 * 128 ^ (f + 1) := by ring
        omega
      obtain ⟨hc, hv⟩ := ih (x >>> 7) hdiv
      have hy := byte_or_0x80 ⟨x % 256, Nat.mod_lt x (by decide)⟩
      simp only at hy
      have hval : (byteOf (x % 256 ||| 0x80)).val = x % 256 ||| 0x80 := by
        simp only [byteOf]
        exact Nat.mod_eq_of_lt hy.1
      rw [if_pos h]
      refine ⟨Chained_cons _ _ (by rw [hval]; exact hy.2.1) hc, ?_⟩
      simp only [groupsValue, hv, hval, hy.2.2]
      rw [Nat.shiftRight_eq_div_pow]
      omega
    · have hx' : x < 128 := by omega
      have h256 : x % 256 = x := Nat.mod_eq_of_lt (by omega)
      rw [if_neg h]
      simp only [Chained, groupsValue, byteOf, h256]
      omega

/-- `PutUvarint` of a value below `2 ^ 64`. -/
theorem PutUvarint_spec (x : Nat) (hx : x < 2 ^ 64) :
    Chained (PutUvarint x) ∧ groupsValue (PutUvarint x) = x := by
  have hu : u64 x = x := Nat.mod_eq_of_lt hx
  unfold PutUvarint
  rw [hu]
  exact PutUvarintLoop_spec 10 x (by omega)

theorem typeCode_range (t : ObjType) : 1 ≤ typeCode t ∧ typeCode t ≤ 4 := by
  cases t <;> simp [typeCode]

/-- C5: for an object of type code `c` (1 to 4) and content length `n`, the
header `writeEntry` writes is the byte `0x80 | (c << 4) | (n mod 16)` followed
by the encoding of `n / 16` in 7-bit groups, least significant first, with
bit 7 set on every byte but the last; the type bits of the first byte are `c`,
never 6 or 7. -/
theorem writeEntry_header (o : Object) (hn : o.bytes.length < 2 ^ 63) :
    ∃ (first : Byte) (szb : List Byte),
      entryHeader o = first :: szb
      ∧ first.val = (0x80 ||| (typeCode o.typ <<< 4) ||| (o.bytes.length % 16))
      ∧ first.val = 128 + 16 * typeCode o.typ + o.bytes.length % 16
      ∧ entryType first = typeCode o.typ
      ∧ entryType first ≠ 6 ∧ entryType first ≠ 7
      ∧ Chained szb
      ∧ groupsValue szb = o.bytes.length / 16 := by
  have hc := typeCode_range o.typ
  have hm : o.bytes.length % 16 < 16 := Nat.mod_lt _ (by decide)
  have hu : u64 o.bytes.length = o.bytes.length := Nat.mod_eq_of_lt (by omega)
  have hlow : (byteOf (u64 o.bytes.length &&& 0x0f)).val = o.bytes.length % 16 := by
    rw [hu, show (0x0f : Nat) = 2 ^ 4 - 1 from rfl, Nat.and_pow_two_sub_one_eq_mod]
    simp only [byteOf]
    omega
  have hbits := first_byte_bits (typeCode o.typ) (by omega) (o.bytes.length % 16) hm
  have hfirst : (byteOf (0x80 ||| (typeCode o.typ <<< 4) ||| (o.bytes.length % 16))).val
      = 128 + 16 * typeCode o.typ + o.bytes.length % 16 := by
    rw [hbits]
    simp only [byteOf]
    omega
  have hsz := PutUvarint_spec (o.bytes.length >>> 4) (by
    rw [Nat.shiftRight_eq_div_pow]
    omega)
  have hty : entryType (byteOf (0x80 ||| (typeCode o.typ <<< 4) ||| (o.bytes.length % 16)))
      = typeCode o.typ := by
    rw [entryType_eq, hfirst]
    omega
  refine ⟨byteOf (0x80 ||| (typeCode o.typ <<< 4) ||| (o.bytes.length % 16)),
    PutUvarint (o.bytes.length >>> 4), ?_, ?_, hfirst, hty, ?_, ?_, hsz.1, ?_⟩
  · simp only [entryHeader, hlow]
  · rw [hfirst, hbits]
  · rw [hty]; omega
  · rw [hty]; omega
  · rw [hsz.2, Nat.shiftRight_eq_div_pow]

/-- A blob of three bytes: its header is `b3 00`. -/
theorem writeEntry_header_witness :
    ∃ (first : Byte) (szb : List Byte),
      entryHeader ⟨ObjType.blob, [1, 2, 3]⟩ = first :: szb
      ∧ first.val = (0x80 ||| (typeCode ObjType.blob <<< 4) ||| (3 % 16))
      ∧ first.val = 128 + 16 * typeCode ObjType.blob + 3 % 16
      ∧ entryType first = typeCode ObjType.blob
      ∧ entryType first ≠ 6 ∧ entryType first ≠ 7
      ∧ Chained szb
      ∧ groupsValue szb = 3 / 16 :=
  writeEntry_header ⟨ObjType.blob, [1, 2, 3]⟩ (by decide)

theorem u64_add_u64 (a b : Nat) : u64 (a + u64 b) = u64 (a + b) := by
  unfold u64
  omega

theorem u64_u64_add (a b : Nat) : u64 (u64 a + b) = u64 (a + b) := by
  unfold u64
  omega

/-- The loop of `readMSBEncodedSize` on bytes with bit 7 set followed by one
with bit 7 clear: it stops after that byte and has added every masked byte at
its shift. -/
theorem readMSBLoop_spec (mid : List Byte) (last : Byte) (rest : List Byte) (b : Byte)
    (sz shift c : Nat) (hmid : ∀ x ∈ mid, x.val &&& 0x80 ≠ 0) (hlast : last.val &&& 0x80 = 0) :
    readMSBLoop (mid ++ last :: rest) b sz shift c
      = some (u64 (sz + sizeSum (mid ++ [last]) shift),
          { Counter := c + (mid.length + 1), reader := rest }) := by
  induction mid generalizing b sz shift c with
  | nil =>
    simp only [List.nil_append, readMSBLoop, hlast, if_true, sizeSum, List.length_nil,
      Nat.shiftLeft_eq, u64_add_u64, Nat.add_zero, Nat.zero_add]
  | cons x mid ih =>
    have hx : x.val &&& 0x80 ≠ 0 := hmid x (List.mem_cons_self _ _)
    have hmid' : ∀ y ∈ mid, y.val &&& 0x80 ≠ 0 := fun y hy => hmid y (List.mem_cons_of_mem _ hy)
    simp only [List.cons_append, readMSBLoop, hx, if_false]
    show readMSBLoop (mid ++ last :: rest) x _ _ _ = _
    rw [ih x _ _ _ hmid']
    simp only [sizeSum, List.length_cons, Nat.shiftLeft_eq, u64_add_u64, u64_u64_add]
    congr 2
    · congr 1
      omega
    · congr 1
      omega

set_option maxRecDepth 4000 in
theorem low_nibble : ∀ b : Byte, b.val &&& 0x0f = b.val % 16 := by
  decide

/-- C6: the type `readEntry` decodes is bits 6..4 of the first byte `b0`; the
size is `b0 & 0x0f` when bit 7 of `b0` is clear, and otherwise, for size bytes
`b1 .. bk` of which the last is the first with bit 7 clear, it is
`(b0 & 0x0f) + sum of (bi & 0x7f) * 2 ^ (4 + 7 * (i - 1))` modulo `2 ^ 64`,
the reader standing right after `bk`. -/
theorem readEntry_header_decoding (b0 : Byte) (mid : List Byte) (last : Byte)
    (rest : List Byte) (c : Nat)
    (hmid : ∀ x ∈ mid, x.val &&& 0x80 ≠ 0) (hlast : last.val &&& 0x80 = 0) :
    entryType b0 = b0.val / 16 % 8
    ∧ (b0.val &&& 0x80 = 0 →
        ∀ r : packEntryReader, readEntrySize r b0 = some (b0.val &&& 0x0f, r))
    ∧ (b0.val &&& 0x80 ≠ 0 →
        readEntrySize { Counter := c, reader := mid ++ last :: rest } b0
          = some (((b0.val &&& 0x0f) + sizeSum (mid ++ [last]) 4) % 2 ^ 64,
              { Counter := c + (mid.length + 1), reader := rest })) := by
  refine ⟨entryType_eq b0, ?_, ?_⟩
  · intro h r
    simp [readEntrySize, h]
  · intro h
    simp only [readEntrySize, h, ne_eq, not_false_eq_true, if_true, readMSBEncodedSize]
    rw [readMSBLoop_spec mid last rest 0 0 4 c hmid hlast]
    simp only [Nat.zero_add, u64_add_u64]
    rfl

/-- The size bytes `93 05` after a first byte `b2`: type 3, size
`2 + 0x13 * 2 ^ 4 + 5 * 2 ^ 11`. -/
theorem readEntry_header_decoding_witness :
    entryType 0xb2 = 0xb2 / 16 % 8
    ∧ (((0xb2 : Byte).val &&& 0x80) = 0 →
        ∀ r : packEntryReader, readEntrySize r 0xb2 = some ((0xb2 : Byte).val &&& 0x0f, r))
    ∧ (((0xb2 : Byte).val &&& 0x80) ≠ 0 →
        readEntrySize { Counter := 1, reader := [0x93] ++ 0x05 :: [0x78, 0x01] } 0xb2
          = some ((((0xb2 : Byte).val &&& 0x0f) + sizeSum ([0x93] ++ [0x05]) 4) % 2 ^ 64,
              { Counter := 1 + (([0x93] : List Byte).length + 1), reader := [0x78, 0x01] })) :=
  readEntry_header_decoding 0xb2 [0x93] 0x05 [0x78, 0x01] 1
    (by intro x hx; rw [List.mem_singleton.mp hx]; decide) (by decide)


/-! ## Unknown entry types -/

theorem inflate_not_tag (L : Lib) (r : packEntryReader) (sz : Int) :
    inflate L r sz ≠ Outcome.error Err.invalidObjectTag := by
  intro h
  unfold inflate at h
  split_ifs at h
  all_goals try cases h
  split at h
  · cases h
  · split_ifs at h
    cases h

theorem putPatched_not_tag (L : Lib) (pf : Packfile) (o : Object) (buf : List Byte)
    (r : packEntryReader) (p : Packfile) :
    putPatched L pf o buf r ≠ EntryResult.error Err.invalidObjectTag p := by
  unfold putPatched
  intro h
  split at h <;> cases h

theorem readEntry_tag_error (L : Lib) (pf : Packfile) (reader : packEntryReader) (offset : Int)
    (p : Packfile) (h : readEntry L pf reader offset = EntryResult.error Err.invalidObjectTag p) :
    (entryType (readByte reader 0).2 ≠ 7 ∧ entryType (readByte reader 0).2 ≠ 6
      ∧ ¬ (entryType (readByte reader 0).2 = 1 ∨ entryType (readByte reader 0).2 = 2
          ∨ entryType (readByte reader 0).2 = 3 ∨ entryType (readByte reader 0).2 = 4))
    ∧ p = pf := by
  unfold readEntry at h
  simp only at h
  split_ifs at h with h7 h6 h14
  · exfalso
    split at h
    · cases h
    · split at h
      · rename_i e heq
        cases h
        exact inflate_not_tag L _ _ heq
      · cases h
      · cases h
      · split at h
        · cases h
        · cases h
        · exact putPatched_not_tag L _ _ _ _ _ h
  · exfalso
    split at h
    · cases h
    · split at h
      · cases h
      · split at h
        · rename_i e heq
          cases h
          exact inflate_not_tag L _ _ heq
        · cases h
        · cases h
        · split at h
          · cases h
          · cases h
          · exact putPatched_not_tag L _ _ _ _ _ h
  · exfalso
    split at h
    · cases h
    · split at h
      · rename_i e heq
        cases h
        exact inflate_not_tag L _ _ heq
      · cases h
      · cases h
      · cases h
  · cases h
    exact ⟨⟨h7, h6, h14⟩, rfl⟩

/-- C8: `readEntry` returns the invalid-object-tag error exactly when bits 6..4
of the first byte (the byte read, or 0 when the input is at its end) are 0 or
5, that is none of 1, 2, 3, 4, 6, 7; the packfile it returns with that error
is the one it was given: `Objects`, `Deltas` and the hash index are unchanged. -/
theorem readEntry_unknown_type (L : Lib) (pf : Packfile) (reader : packEntryReader)
    (offset : Int) :
    ((∃ p, readEntry L pf reader offset = EntryResult.error Err.invalidObjectTag p)
        ↔ (entryType (readByte reader 0).2 = 0 ∨ entryType (readByte reader 0).2 = 5))
    ∧ ((entryType (readByte reader 0).2 = 0 ∨ entryType (readByte reader 0).2 = 5)
        ↔ entryType (readByte reader 0).2 ∉ ({1, 2, 3, 4, 6, 7} : Set Nat))
    ∧ entryType (readByte reader 0).2 = (readByte reader 0).2.val / 16 % 8
    ∧ (∀ p, readEntry L pf reader offset = EntryResult.error Err.invalidObjectTag p →
        p = pf ∧ p.Objects = pf.Objects ∧ p.Deltas = pf.Deltas ∧ p.hashes = pf.hashes) := by
  have hty := entryType_eq (readByte reader 0).2
  have hlt : entryType (readByte reader 0).2 < 8 := by rw [hty]; omega
  refine ⟨⟨?_, ?_⟩, ?_, hty, ?_⟩
  · rintro ⟨p, hp⟩
    have h := (readEntry_tag_error L pf reader offset p hp).1
    omega
  · intro h
    refine ⟨pf, ?_⟩
    unfold readEntry
    rcases h with h | h <;> simp [h]
  · simp only [Set.mem_insert_iff, Set.mem_singleton_iff]
    omega
  · intro p hp
    have h := (readEntry_tag_error L pf reader offset p hp).2
    subst h
    exact ⟨rfl, rfl, rfl, rfl⟩

/-! ## The negative offset of an `OBJ_OFS_DELTA` entry -/

theorem i64_step (m : Int) (x : Int) :
    i64 (i64 (i64 (i64 m + 1) * 2 ^ 7) + x) = i64 ((m + 1) * 128 + x) := by
  unfold i64
  omega

theorem i64_of_small (v : Int) (h0 : 0 ≤ v) (h1 : v < 2 ^ 63) : i64 v = v := by
  unfold i64
  omega

set_option maxRecDepth 4000 in
theorem low7_lt : ∀ b : Byte, b.val &&& 0x7f < 128 := by
  decide

/-- The loop entered with `b` having bit 7 set, on bytes with bit 7 set followed
by one with bit 7 clear: it stops after that byte, and `noffset` is the wrapped
value of the recurrence. -/
theorem readOffsetLoop_spec (mid : List Byte) (last : Byte) (rest : List Byte) (b : Byte)
    (m : Nat) (c : Nat) (hb : b.val &&& 0x80 ≠ 0)
    (hmid : ∀ x ∈ mid, x.val &&& 0x80 ≠ 0) (hlast : last.val &&& 0x80 = 0) :
    readOffsetLoop (mid ++ last :: rest) b (i64 (m : Int)) c
      = some (i64 (((mid ++ [last]).foldl
            (fun v x => (v + 1) * 128 + (x.val &&& 0x7f)) m : Nat) : Int),
          { Counter := c + (mid.length + 1), reader := rest }) := by
  induction mid generalizing b m c with
  | nil =>
    simp only [List.nil_append, readOffsetLoop, hb, ne_eq, not_false_eq_true, if_true, i64_step]
    cases rest with
    | nil =>
      simp only [readOffsetLoop, hlast, ne_eq, not_true_eq_false, if_false, List.foldl,
        List.length_nil]
      push_cast
      rfl
    | cons y ys =>
      simp only [readOffsetLoop, hlast, ne_eq, not_true_eq_false, if_false, List.foldl,
        List.length_nil]
      push_cast
      rfl
  | cons x mid ih =>
    have hx : x.val &&& 0x80 ≠ 0 := hmid x (List.mem_cons_self _ _)
    have hmid' : ∀ y ∈ mid, y.val &&& 0x80 ≠ 0 := fun y hy => hmid y (List.mem_cons_of_mem _ hy)
    simp only [List.cons_append, readOffsetLoop, hb, ne_eq, not_false_eq_true, if_true, i64_step]
    have hcast : ((m : Int) + 1) * 128 + ((x.val &&& 0x7f : Nat) : Int)
        = (((m + 1) * 128 + (x.val &&& 0x7f) : Nat) : Int) := by
      push_cast
      rfl
    rw [hcast]
    show readOffsetLoop (mid ++ last :: rest) x _ _ = _
    rw [ih x _ _ hx hmid']
    simp only [List.foldl, List.length_cons]
    congr 2
    congr 1
    omega

/-- The bytes `c0 .. ck` of a negative offset: `readEntry` decodes the wrapped
value of the recurrence and stands right after `ck`. -/
theorem readNegativeOffset_spec (init : List Byte) (last : Byte) (rest : List Byte) (b : Byte)
    (c : Nat) (hinit : ∀ x ∈ init, x.val &&& 0x80 ≠ 0) (hlast : last.val &&& 0x80 = 0) :
    readNegativeOffset { Counter := c, reader := init ++ last :: rest } b
      = some (i64 (ofsValue (init ++ [last]) : Int),
          { Counter := c + (init.length + 1), reader := rest }) := by
  cases init with
  | nil =>
    have hsmall : i64 ((last.val &&& 0x7f : Nat) : Int) = ((last.val &&& 0x7f : Nat) : Int) := by
      have := low7_lt last
      apply i64_of_small <;> omega
    cases rest with
    | nil =>
      simp [readNegativeOffset, readByte, readOffsetLoop, hlast, ofsValue, hsmall]
    | cons y ys =>
      simp [readNegativeOffset, readByte, readOffsetLoop, hlast, ofsValue, hsmall]
  | cons x mid =>
    have hx : x.val &&& 0x80 ≠ 0 := hinit x (List.mem_cons_self _ _)
    have hmid : ∀ y ∈ mid, y.val &&& 0x80 ≠ 0 := fun y hy => hinit y (List.mem_cons_of_mem _ hy)
    have hsmall : i64 ((x.val &&& 0x7f : Nat) : Int) = ((x.val &&& 0x7f : Nat) : Int) := by
      have := low7_lt x
      apply i64_of_small <;> omega
    have h := readOffsetLoop_spec mid last rest x (x.val &&& 0x7f) (c + 1) hx hmid hlast
    rw [hsmall] at h
    simp only [readNegativeOffset, readByte, List.cons_append]
    show readOffsetLoop (mid ++ last :: rest) x _ _ = _
    rw [h]
    have hc : c + 1 + (mid.length + 1) = c + (mid.length + 1 + 1) := by omega
    simp only [ofsValue, List.cons_append, List.length_cons, hc]

theorem ofsLow_lt_succ (k : Nat) : ofsLow k < ofsLow (k + 1) := by
  simp only [ofsLow]
  omega

theorem ofsLow_mono {j k : Nat} (h : j ≤ k) : ofsLow j ≤ ofsLow k := by
  induction k with
  | zero =>
    have : j = 0 := by omega
    subst this
    exact Nat.le_refl _
  | succ k ih =>
    by_cases hj : j ≤ k
    · exact Nat.le_trans (ih hj) (Nat.le_of_lt (ofsLow_lt_succ k))
    · have : j = k + 1 := by omega
      subst this
      exact Nat.le_refl _

theorem ofs_foldl_range (cs : List Byte) (v k : Nat) (hlo : ofsLow k ≤ v)
    (hhi : v < ofsLow (k + 1)) :
    ofsLow (k + cs.length) ≤ cs.foldl (fun v c => (v + 1) * 128 + (c.val &&& 0x7f)) v
    ∧ cs.foldl (fun v c => (v + 1) * 128 + (c.val &&& 0x7f)) v < ofsLow (k + cs.length + 1) := by
  induction cs generalizing v k with
  | nil => exact ⟨hlo, hhi⟩
  | cons x xs ih =>
    have hx := low7_lt x
    have h1 : ofsLow (k + 1) ≤ (v + 1) * 128 + (x.val &&& 0x7f) := by
      simp only [ofsLow]
      omega
    have h2 : (v + 1) * 128 + (x.val &&& 0x7f) < ofsLow (k + 1 + 1) := by
      simp only [ofsLow] at hhi ⊢
      omega
    have h := ih _ (k + 1) h1 h2
    have e : k + (xs.length + 1) = k + 1 + xs.length := by omega
    simp only [List.foldl, List.length_cons, e]
    exact h

/-- An encoding of `k + 1` bytes has a value from `ofsLow k` up to, not
including, `ofsLow (k + 1)`. -/
theorem ofsValue_range (cs : List Byte) (h : cs ≠ []) :
    ofsLow (cs.length - 1) ≤ ofsValue cs ∧ ofsValue cs < ofsLow cs.length := by
  cases cs with
  | nil => exact absurd rfl h
  | cons c0 cs =>
    have h0 := low7_lt c0
    have := ofs_foldl_range cs (c0.val &&& 0x7f) 0 (Nat.zero_le _) (by simp only [ofsLow]; omega)
    simpa [ofsValue] using this

/-- Encodings of different lengths have different values. -/
theorem ofsValue_ne_of_length_ne (cs cs' : List Byte) (h : cs ≠ []) (h' : cs' ≠ [])
    (hlen : cs.length ≠ cs'.length) : ofsValue cs ≠ ofsValue cs' := by
  have r := ofsValue_range cs h
  have r' := ofsValue_range cs' h'
  have l : 0 < cs.length := List.length_pos.mpr h
  have l' : 0 < cs'.length := List.length_pos.mpr h'
  rcases Nat.lt_or_gt_of_ne hlen with hlt | hgt
  · have := ofsLow_mono (show cs.length ≤ cs'.length - 1 by omega)
    omega
  · have := ofsLow_mono (show cs'.length ≤ cs.length - 1 by omega)
    omega

/-- Up to eight bytes the value stays below `2 ^ 63`. -/
theorem ofsValue_lt_of_length_le (cs : List Byte) (h : cs ≠ []) (hlen : cs.length ≤ 8) :
    ofsValue cs < 2 ^ 63 := by
  have r := ofsValue_range cs h
  have m := ofsLow_mono hlen
  have e : ofsLow 8 = 72624976668147840 := by decide
  omega

/-- C7 (amended): for the offset bytes `c0 .. ck` of an `OBJ_OFS_DELTA` entry
`readEntry` decodes the recurrence `v_0 = c0 & 0x7f`,
`v_i = (v_(i-1) + 1) * 128 + (ci & 0x7f)` wrapped to a signed 64-bit `int`,
which is `v_k` itself whenever `v_k < 2 ^ 63`, as for every encoding of at most
eight bytes; one byte gives 0..127, two bytes give at least 128, encodings of
different lengths have different `v_k`; the base is looked up at the entry's
offset minus the decoded value. -/
theorem readEntry_offset_decoding (L : Lib) (pf : Packfile) (offset : Int) (b0 : Byte)
    (stream : List Byte) (c0 sz c : Nat) (init : List Byte) (last : Byte) (rest : List Byte)
    (buf : List Byte) (r3 : packEntryReader)
    (hinit : ∀ x ∈ init, x.val &&& 0x80 ≠ 0) (hlast : last.val &&& 0x80 = 0)
    (htyp : entryType b0 = 6)
    (hsz : readEntrySize { Counter := c0 + 1, reader := stream } b0
        = some (sz, { Counter := c, reader := init ++ last :: rest }))
    (hinf : inflate L { Counter := c + (init.length + 1), reader := rest } (i64 sz)
        = Outcome.ok (buf, r3)) :
    readNegativeOffset { Counter := c, reader := init ++ last :: rest } b0
        = some (i64 (ofsValue (init ++ [last]) : Int),
            { Counter := c + (init.length + 1), reader := rest })
    ∧ (ofsValue (init ++ [last]) < 2 ^ 63 →
        i64 (ofsValue (init ++ [last]) : Int) = (ofsValue (init ++ [last]) : Int))
    ∧ (init.length + 1 ≤ 8 → ofsValue (init ++ [last]) < 2 ^ 63)
    ∧ (init = [] → ofsValue (init ++ [last]) ≤ 127)
    ∧ (init.length = 1 → 128 ≤ ofsValue (init ++ [last]))
    ∧ (∀ cs : List Byte, cs ≠ [] → cs.length ≠ init.length + 1 →
        ofsValue cs ≠ ofsValue (init ++ [last]))
    ∧ readEntry L pf { Counter := c0, reader := b0 :: stream } offset
        = (match pf.ObjectByOffset (i64 (offset - i64 (ofsValue (init ++ [last]) : Int))) with
           | ObjRef.panic => EntryResult.panic
           | ObjRef.nil => EntryResult.error Err.noEntryAt pf
           | ObjRef.obj referenced => putPatched L pf referenced buf r3) := by
  have hne : init ++ [last] ≠ [] := by simp
  have hl : (init ++ [last]).length = init.length + 1 := by simp
  have hr := ofsValue_range (init ++ [last]) hne
  have hdec := readNegativeOffset_spec init last rest b0 c hinit hlast
  refine ⟨hdec, ?_, ?_, ?_, ?_, ?_, ?_⟩
  · intro h
    apply i64_of_small
    · exact Int.natCast_nonneg _
    · exact_mod_cast h
  · intro h
    exact ofsValue_lt_of_length_le _ hne (by omega)
  · intro h
    subst h
    have e : ofsLow 1 = 128 := by decide
    simp only [List.nil_append, List.length_singleton] at hr ⊢
    omega
  · intro h
    have e : ofsLow 1 = 128 := by decide
    rw [hl, h] at hr
    simp only [Nat.add_sub_cancel] at hr
    omega
  · intro cs hcs hlen
    exact ofsValue_ne_of_length_ne cs _ hcs hne (by omega)
  · unfold readEntry
    simp only [readByte, htyp, hsz, hdec, hinf]
    simp

set_option maxRecDepth 100000 in
/-- An entry `63 80 20` and a stored stream of three bytes, read at offset 300
in a packfile that has an object at offset 140: the offset bytes `80 20`
decode to 160 and the base is the object at 300 - 160. -/
theorem readEntry_offset_decoding_witness :
    readNegativeOffset { Counter := 1, reader := [0x80] ++ 0x20 :: storedWrite [2, 33, 34] } 0x63
        = some (i64 (ofsValue ([0x80] ++ [0x20]) : Int),
            { Counter := 1 + (([0x80] : List Byte).length + 1),
              reader := storedWrite [2, 33, 34] })
    ∧ ofsValue ([0x80] ++ [0x20]) = 160
    ∧ readEntry sampleLib
          { Version := 2, Objects := [⟨ObjType.blob, [104, 105]⟩], Checksum := [], Deltas := [],
            offsets := [(140, 0)], hashes := [] }
          { Counter := 0, reader := 0x63 :: ([0x80] ++ 0x20 :: storedWrite [2, 33, 34]) } 300
        = (match Packfile.ObjectByOffset
              { Version := 2, Objects := [⟨ObjType.blob, [104, 105]⟩], Checksum := [],
                Deltas := [], offsets := [(140, 0)], hashes := [] }
              (i64 (300 - i64 (ofsValue ([0x80] ++ [0x20]) : Int))) with
           | ObjRef.panic => EntryResult.panic
           | ObjRef.nil => EntryResult.error Err.noEntryAt
              { Version := 2, Objects := [⟨ObjType.blob, [104, 105]⟩], Checksum := [],
                Deltas := [], offsets := [(140, 0)], hashes := [] }
           | ObjRef.obj referenced => putPatched sampleLib
              { Version := 2, Objects := [⟨ObjType.blob, [104, 105]⟩], Checksum := [],
                Deltas := [], offsets := [(140, 0)], hashes := [] }
              referenced [2, 33, 34] { Counter := 13, reader := adler32 [2, 33, 34] }) :=
  have h := readEntry_offset_decoding sampleLib
    { Version := 2, Objects := [⟨ObjType.blob, [104, 105]⟩], Checksum := [], Deltas := [],
      offsets := [(140, 0)], hashes := [] }
    300 0x63 ([0x80] ++ 0x20 :: storedWrite [2, 33, 34]) 0 3 1 [0x80] 0x20
    (storedWrite [2, 33, 34]) [2, 33, 34] { Counter := 13, reader := adler32 [2, 33, 34] }
    (by intro x hx; rw [List.mem_singleton.mp hx]; decide) (by decide) (by decide)
    (by decide) (by decide)
  ⟨h.1, by decide, h.2.2.2.2.2.2⟩

set_option maxRecDepth 100000 in
/-- C7 (as stated, refuted): the nine offset bytes `ff ff ff ff ff ff ff ff 7f`
have `v_8 = 9295997013522923647` but `readEntry` decodes a negative `int`; and
the nine bytes `80 .. 80 00` decode to the same value as the ten bytes
`81 80 .. 80 00`. -/
theorem ofs_delta_offset_wraps :
    readNegativeOffset
        { Counter := 0, reader := [0xff, 0xff, 0xff, 0xff, 0xff, 0xff, 0xff, 0xff, 0x7f] } 0x60
      = some (-9150747060186627969, { Counter := 9, reader := [] })
    ∧ ofsValue [0xff, 0xff, 0xff, 0xff, 0xff, 0xff, 0xff, 0xff, 0x7f] = 9295997013522923647
    ∧ readNegativeOffset
        { Counter := 0, reader := [0x80, 0x80, 0x80, 0x80, 0x80, 0x80, 0x80, 0x80, 0x00] } 0x60
      = some (72624976668147840, { Counter := 9, reader := [] })
    ∧ readNegativeOffset
        { Counter := 0,
          reader := [0x81, 0x80, 0x80, 0x80, 0x80, 0x80, 0x80, 0x80, 0x80, 0x00] } 0x60
      = some (72624976668147840, { Counter := 10, reader := [] }) := by
  decide

/-! ## Errors of `readEntry` and the hash index -/

theorem inflate_error_kind (L : Lib) (r : packEntryReader) (sz : Int) (e : Err)
    (h : inflate L r sz = Outcome.error e) :
    e = Err.zlibOpen ∨ e = Err.zlibRead ∨ e = Err.inflatedSizeMismatch := by
  unfold inflate at h
  by_cases h1 : L.zlibNewReader r.reader = true
  · simp only [h1, not_true_eq_false, if_false] at h
    by_cases h2 : sz < 0 ∨ (L.makeLimit : Int) < sz
    · simp [h2] at h
    · simp only [h2, if_false] at h
      split at h
      · cases h
        exact Or.inr (Or.inl rfl)
      · split_ifs at h
        cases h
        exact Or.inr (Or.inr rfl)
  · simp only [h1, not_false_eq_true, if_true] at h
    cases h
    exact Or.inl rfl

theorem putPatched_cases (L : Lib) (pf : Packfile) (o : Object) (buf : List Byte)
    (r : packEntryReader) :
    putPatched L pf o buf r = EntryResult.error Err.patching pf
    ∨ ∃ patched, putPatched L pf o buf r
        = EntryResult.ok (pf.PutObject L { typ := o.typ, bytes := patched }) r := by
  unfold putPatched
  split
  · exact Or.inl rfl
  · exact Or.inr ⟨_, rfl⟩

/-- What `readEntry` can return: an error other than checksum mismatch with the
packfile untouched, or the packfile with one more pending delta or one more
object put. -/
theorem readEntry_cases (L : Lib) (pf : Packfile) (reader : packEntryReader) (offset : Int) :
    readEntry L pf reader offset = EntryResult.panic
    ∨ readEntry L pf reader offset = EntryResult.diverge
    ∨ (∃ e, e ≠ Err.checksumMismatch ∧ e ≠ Err.notAPackfile
        ∧ readEntry L pf reader offset = EntryResult.error e pf)
    ∨ (∃ d r, readEntry L pf reader offset
        = EntryResult.ok { pf with Deltas := pf.Deltas ++ [d] } r)
    ∨ (∃ o r, readEntry L pf reader offset = EntryResult.ok (pf.PutObject L o) r) := by
  have hinf : ∀ r sz e, inflate L r sz = Outcome.error e →
      e ≠ Err.checksumMismatch ∧ e ≠ Err.notAPackfile := by
    intro r sz e h
    rcases inflate_error_kind L r sz e h with h | h | h <;> subst h <;> simp
  have hput : ∀ (o : Object) (buf : List Byte) (r : packEntryReader),
      (∃ e, e ≠ Err.checksumMismatch ∧ e ≠ Err.notAPackfile
        ∧ putPatched L pf o buf r = EntryResult.error e pf)
      ∨ (∃ o' r', putPatched L pf o buf r = EntryResult.ok (pf.PutObject L o') r') := by
    intro o buf r
    rcases putPatched_cases L pf o buf r with h | ⟨patched, h⟩
    · exact Or.inl ⟨_, by simp, by simp, h⟩
    · exact Or.inr ⟨_, _, h⟩
  unfold readEntry
  simp only
  split_ifs with h7 h6 h14
  · split
    · exact Or.inr (Or.inl rfl)
    · split
      · rename_i e heq
        exact Or.inr (Or.inr (Or.inl ⟨e, (hinf _ _ _ heq).1, (hinf _ _ _ heq).2, rfl⟩))
      · exact Or.inl rfl
      · exact Or.inr (Or.inl rfl)
      · split
        · exact Or.inl rfl
        · exact Or.inr (Or.inr (Or.inr (Or.inl ⟨_, _, rfl⟩)))
        · rcases hput _ _ _ with h | h
          · exact Or.inr (Or.inr (Or.inl h))
          · exact Or.inr (Or.inr (Or.inr (Or.inr h)))
  · split
    · exact Or.inr (Or.inl rfl)
    · split
      · exact Or.inr (Or.inl rfl)
      · split
        · rename_i e heq
          exact Or.inr (Or.inr (Or.inl ⟨e, (hinf _ _ _ heq).1, (hinf _ _ _ heq).2, rfl⟩))
        · exact Or.inl rfl
        · exact Or.inr (Or.inl rfl)
        · split
          · exact Or.inl rfl
          · exact Or.inr (Or.inr (Or.inl ⟨_, by simp, by simp, rfl⟩))
          · rcases hput _ _ _ with h | h
            · exact Or.inr (Or.inr (Or.inl h))
            · exact Or.inr (Or.inr (Or.inr (Or.inr h)))
  · split
    · exact Or.inr (Or.inl rfl)
    · split
      · rename_i e heq
        exact Or.inr (Or.inr (Or.inl ⟨e, (hinf _ _ _ heq).1, (hinf _ _ _ heq).2, rfl⟩))
      · exact Or.inl rfl
      · exact Or.inr (Or.inl rfl)
      · exact Or.inr (Or.inr (Or.inr (Or.inr ⟨_, _, rfl⟩)))
  · exact Or.inr (Or.inr (Or.inl ⟨_, by simp, by simp, rfl⟩))

theorem HashesValid_PutObject (L : Lib) (pf : Packfile) (o : Object)
    (h : HashesValid pf.hashes pf.Objects) :
    HashesValid (pf.PutObject L o).hashes (pf.PutObject L o).Objects := by
  intro k v hk
  simp only [Packfile.PutObject, mapSet, mapGet, List.length_append, List.length_singleton] at hk ⊢
  split_ifs at hk with hkey
  · cases hk
    push_cast
    omega
  · have := h k v hk
    push_cast
    omega

theorem HashesValid_append (hashes : List (List Byte × Int)) (objs more : List Object)
    (h : HashesValid hashes objs) : HashesValid hashes (objs ++ more) := by
  intro k v hk
  have := h k v hk
  simp only [List.length_append]
  push_cast
  omega

theorem readEntry_ok_HashesValid (L : Lib) (pf p : Packfile) (reader r : packEntryReader)
    (offset : Int) (h : readEntry L pf reader offset = EntryResult.ok p r)
    (hv : HashesValid pf.hashes pf.Objects) : HashesValid p.hashes p.Objects := by
  rcases readEntry_cases L pf reader offset with h' | h' | ⟨e, _, _, h'⟩ | ⟨d, r', h'⟩ | ⟨o, r', h'⟩
  · rw [h'] at h; cases h
  · rw [h'] at h; cases h
  · rw [h'] at h; cases h
  · rw [h'] at h; cases h; exact hv
  · rw [h'] at h; cases h; exact HashesValid_PutObject L pf o hv

theorem readEntry_error_kind (L : Lib) (pf p : Packfile) (reader : packEntryReader)
    (offset : Int) (e : Err) (h : readEntry L pf reader offset = EntryResult.error e p) :
    e ≠ Err.checksumMismatch ∧ e ≠ Err.notAPackfile := by
  rcases readEntry_cases L pf reader offset with h' | h' | ⟨e', h1, h2, h'⟩ | ⟨d, r', h'⟩ | ⟨o, r', h'⟩
  · rw [h'] at h; cases h
  · rw [h'] at h; cases h
  · rw [h'] at h; cases h; exact ⟨h1, h2⟩
  · rw [h'] at h; cases h
  · rw [h'] at h; cases h

/-- The entry loop keeps the hash index within `Objects`, and the errors it
returns are errors of `readEntry`. -/
theorem entryLoop_inv (L : Lib) (n : Nat) (s : LoopState)
    (hv : HashesValid s.packfile.hashes s.packfile.Objects) :
    (∀ s', entryLoop L n s = LoopResult.done s' →
        HashesValid s'.packfile.hashes s'.packfile.Objects)
    ∧ (∀ e p, entryLoop L n s = LoopResult.error e p →
        e ≠ Err.checksumMismatch ∧ e ≠ Err.notAPackfile) := by
  induction n generalizing s with
  | zero =>
    refine ⟨?_, ?_⟩
    · intro s' h
      simp only [entryLoop] at h
      cases h
      exact hv
    · intro e p h
      simp only [entryLoop] at h
      cases h
  | succ n ih =>
    cases hre : readEntry L s.packfile { Counter := 0, reader := s.content } s.offset with
    | error e p =>
      refine ⟨?_, ?_⟩
      · intro s' h
        simp only [entryLoop, hre] at h
        cases h
      · intro e' p' h
        simp only [entryLoop, hre] at h
        cases h
        exact readEntry_error_kind L _ _ _ _ _ hre
    | panic =>
      refine ⟨?_, ?_⟩ <;> intros <;> rename_i h <;> simp only [entryLoop, hre] at h <;> cases h
    | diverge =>
      refine ⟨?_, ?_⟩ <;> intros <;> rename_i h <;> simp only [entryLoop, hre] at h <;> cases h
    | ok p r =>
      have hp := readEntry_ok_HashesValid L _ _ _ _ _ hre hv
      by_cases hlen : s.content.length < r.Counter + 4
      · refine ⟨?_, ?_⟩ <;> intros <;> rename_i h <;>
          simp only [entryLoop, hre, hlen, if_true] at h <;> cases h
      · refine ⟨?_, ?_⟩
        · intro s' h
          simp only [entryLoop, hre, hlen, if_false] at h
          exact (ih _ (by exact hp)).1 s' h
        · intro e' p' h
          simp only [entryLoop, hre, hlen, if_false] at h
          exact (ih _ (by exact hp)).2 e' p' h

/-- With the hash index within `objs`, the loop over the pending deltas runs to
its end. -/
theorem resolveLoop_total (L : Lib) (pf : Packfile) (ds : List Delta) (objs : List Object)
    (unresolved : List Delta) (hv : HashesValid pf.hashes objs) :
    ∃ r, resolveLoop L pf ds objs unresolved = some r := by
  induction ds generalizing objs unresolved with
  | nil => exact ⟨_, rfl⟩
  | cons d rest ih =>
    unfold resolveLoop
    cases hg : mapGet pf.hashes d.Hash with
    | none =>
      simp only [Packfile.ObjectByHash, hg]
      exact ih objs _ hv
    | some idx =>
      have hi := hv _ _ hg
      have hlt : idx.toNat < objs.length := by omega
      have hget : objs.get? idx.toNat = some (objs.get ⟨idx.toNat, hlt⟩) := List.get?_eq_get hlt
      simp only [Packfile.ObjectByHash, hg, indexObjects, not_lt.mpr hi.1, if_false, hget]
      exact ih _ _ (HashesValid_append _ _ _ hv)

theorem readEntries_inv (L : Lib) (buffer : List Byte) :
    (∀ s, readEntries L buffer = LoopResult.done s →
        HashesValid s.packfile.hashes s.packfile.Objects)
    ∧ (∀ e p, readEntries L buffer = LoopResult.error e p →
        e ≠ Err.checksumMismatch ∧ e ≠ Err.notAPackfile) := by
  unfold readEntries
  apply entryLoop_inv
  intro k v h
  simp [mapGet] at h

/-! ## `ReadPackfile` after the entry loop -/

theorem ReadPackfile_of_error (L : Lib) (buffer : List Byte) (e : Err) (p : Packfile)
    (hlen : 20 ≤ buffer.length)
    (hmagic : (readInto { Counter := 0, reader := buffer } 4).2 = magicPACK)
    (hloop : readEntries L buffer = LoopResult.error e p) :
    ReadPackfile L buffer = ReadResult.error e (some p) := by
  simp [ReadPackfile, Nat.not_lt.mpr hlen, hmagic, hloop]

theorem ReadPackfile_of_done (L : Lib) (buffer : List Byte) (s : LoopState)
    (hlen : 20 ≤ buffer.length)
    (hmagic : (readInto { Counter := 0, reader := buffer } 4).2 = magicPACK)
    (hloop : readEntries L buffer = LoopResult.done s) :
    ∃ q, ReadPackfile L buffer =
      if L.SHA160 (buffer.take (buffer.length - 20))
          ≠ (readInto { Counter := 0, reader := s.content } 20).2
      then ReadResult.error Err.checksumMismatch (some q) else ReadResult.ok q := by
  obtain ⟨⟨objs, unresolved⟩, hr⟩ := resolveLoop_total L s.packfile s.packfile.Deltas
    s.packfile.Objects [] ((readEntries_inv L buffer).1 s hloop)
  refine ⟨Packfile.mk s.packfile.Version objs
    (readInto { Counter := 0, reader := s.content } 20).2 unresolved s.packfile.offsets
    s.packfile.hashes, ?_⟩
  simp only [ReadPackfile, Nat.not_lt.mpr hlen, hmagic, hloop, hr, if_false, ne_eq,
    not_true_eq_false]

theorem ReadPackfile_ok_inv (L : Lib) (buffer : List Byte) (p : Packfile)
    (h : ReadPackfile L buffer = ReadResult.ok p) :
    20 ≤ buffer.length
    ∧ (readInto { Counter := 0, reader := buffer } 4).2 = magicPACK
    ∧ ∃ s, readEntries L buffer = LoopResult.done s
        ∧ L.SHA160 (buffer.take (buffer.length - 20))
            = (readInto { Counter := 0, reader := s.content } 20).2 := by
  unfold ReadPackfile at h
  by_cases hlen : buffer.length < 20
  · simp [hlen] at h
  · simp only [hlen, if_false] at h
    by_cases hm : (readInto { Counter := 0, reader := buffer } 4).2 = magicPACK
    · simp only [hm, ne_eq, not_true_eq_false, if_false] at h
      refine ⟨Nat.le_of_not_lt hlen, hm, ?_⟩
      cases hl : readEntries L buffer with
      | error e q => simp [hl] at h
      | panic => simp [hl] at h
      | diverge => simp [hl] at h
      | done s =>
        refine ⟨s, rfl, ?_⟩
        simp only [hl] at h
        split at h
        · cases h
        · split_ifs at h with hc
          exact hc
    · simp [hm] at h

theorem magic_set (buffer : List Byte) (i : Nat) (v : Byte) (hi : 4 < i) :
    (readInto { Counter := 0, reader := buffer.set i v } 4).2
      = (readInto { Counter := 0, reader := buffer } 4).2 := by
  simp only [readInto]
  rw [List.take_set_of_lt v buffer hi]

/-- C3 (amended): in a pack that `ReadPackfile` accepts, change one byte after
the 12-byte header and before the 20-byte trailer, the SHA-1 of the content
becoming different. If the entry loop on the changed pack stops at an entry
for which `readEntry` returns an error, `ReadPackfile` returns that error, which
is not the checksum mismatch; if the entry loop runs to its end and stops where
it stopped on the accepted pack, `ReadPackfile` returns the checksum-mismatch
error. The trailer is as it was. (A changed pack on which an entry read panics
or does not return is outside both cases.) -/
theorem ReadPackfile_changed_byte (L : Lib) (buffer : List Byte) (p : Packfile) (i : Nat)
    (v : Byte) (hacc : ReadPackfile L buffer = ReadResult.ok p)
    (hi : 12 ≤ i) (hi' : i + 20 < buffer.length)
    (hsha : L.SHA160 ((buffer.set i v).take ((buffer.set i v).length - 20))
        ≠ L.SHA160 (buffer.take (buffer.length - 20))) :
    (buffer.set i v).drop (buffer.length - 20) = buffer.drop (buffer.length - 20)
    ∧ (∀ e q, readEntries L (buffer.set i v) = LoopResult.error e q →
        ReadPackfile L (buffer.set i v) = ReadResult.error e (some q)
        ∧ e ≠ Err.checksumMismatch)
    ∧ ((readEntries L (buffer.set i v)).rest = (readEntries L buffer).rest →
        ∃ q, ReadPackfile L (buffer.set i v)
          = ReadResult.error Err.checksumMismatch (some q)) := by
  obtain ⟨hlen, hmagic, s, hloop, hsum⟩ := ReadPackfile_ok_inv L buffer p hacc
  have hlen' : 20 ≤ (buffer.set i v).length := by simpa using hlen
  have hmagic' : (readInto { Counter := 0, reader := buffer.set i v } 4).2 = magicPACK := by
    rw [magic_set buffer i v (by omega)]
    exact hmagic
  refine ⟨List.drop_set_of_lt v buffer (by omega), ?_, ?_⟩
  · intro e q hl
    exact ⟨ReadPackfile_of_error L _ e q hlen' hmagic' hl, ((readEntries_inv L _).2 e q hl).1⟩
  · intro hrest
    cases hl : readEntries L (buffer.set i v) with
    | error e q => simp [hl, hloop, LoopResult.rest] at hrest
    | panic => simp [hl, hloop, LoopResult.rest] at hrest
    | diverge => simp [hl, hloop, LoopResult.rest] at hrest
    | done s' =>
      have hc : s'.content = s.content := by
        simpa [hl, hloop, LoopResult.rest] using hrest
      obtain ⟨q, hq⟩ := ReadPackfile_of_done L _ s' hlen' hmagic' hl
      refine ⟨q, ?_⟩
      rw [hq, hc, ← hsum, if_pos hsha]

set_option maxRecDepth 100000 in
/-- The pack of the blob `hi` with byte 21, the `h`, set to zero: the entry
still decodes, to the same length, and the checksum no longer fits. -/
theorem ReadPackfile_changed_byte_witness :
    ∃ q, ReadPackfile sampleLib ((samplePack 1 blobEntry).set 21 0)
      = ReadResult.error Err.checksumMismatch (some q) :=
  (ReadPackfile_changed_byte sampleLib (samplePack 1 blobEntry)
    { Version := 2, Objects := [blobHi],
      Checksum := polySum (magicPACK ++ be32 2 ++ be32 1 ++ blobEntry), Deltas := [],
      offsets := [(12, 0)], hashes := [(sampleLib.objectHash blobHi, 0)] }
    21 0 (by decide) (by decide) (by decide) (by decide)).2.2 (by decide)

set_option maxRecDepth 100000 in
/-- C3 (as stated, refuted): the pack of the blob `hi` is accepted; with its
byte 12, the first byte `b2` of the entry, set to `82` the SHA-1 stand-in of the
content differs, and `ReadPackfile` returns the invalid-object-tag error of
`readEntry`, not the checksum mismatch. -/
theorem changed_byte_invalid_tag :
    ReadPackfile sampleLib (samplePack 1 blobEntry)
      = ReadResult.ok
          { Version := 2, Objects := [blobHi],
            Checksum := polySum (magicPACK ++ be32 2 ++ be32 1 ++ blobEntry), Deltas := [],
            offsets := [(12, 0)], hashes := [(sampleLib.objectHash blobHi, 0)] }
    ∧ (samplePack 1 blobEntry).length = 47
    ∧ (samplePack 1 blobEntry).get? 12 = some 0xb2
    ∧ sampleLib.SHA160 (((samplePack 1 blobEntry).set 12 0x82).take 27)
        ≠ sampleLib.SHA160 ((samplePack 1 blobEntry).take 27)
    ∧ ReadPackfile sampleLib ((samplePack 1 blobEntry).set 12 0x82)
      = ReadResult.error Err.invalidObjectTag
          (some { Version := 2, Objects := [], Checksum := [], Deltas := [],
                  offsets := [], hashes := [] }) := by
  decide

/-! ## Offsets of pending deltas, and the pass over them -/

set_option maxRecDepth 100000 in
/-- C9 (the code at the failing input): after a first entry that is a
`REF_DELTA` with an unknown base, `offsets[12]` is `-1` while `Objects` is
empty, so `ObjectByOffset(12)` indexes out of range; a second entry that is an
`OFS_DELTA` pointing back at offset 12 makes `ReadPackfile` panic. -/
theorem pending_ref_delta_offset :
    readEntries sampleLib (samplePack 1 refUnknownEntry)
      = LoopResult.done
          { packfile :=
              { Version := 2, Objects := [], Checksum := [],
                Deltas := [{ Hash := List.replicate 20 0x11, Delta := [9] }],
                offsets := [(12, -1)], hashes := [] },
            content := polySum (magicPACK ++ be32 2 ++ be32 1 ++ refUnknownEntry),
            offset := 45 }
    ∧ Packfile.ObjectByOffset
        { Version := 2, Objects := [], Checksum := [],
          Deltas := [{ Hash := List.replicate 20 0x11, Delta := [9] }],
          offsets := [(12, -1)], hashes := [] } 12 = ObjRef.panic
    ∧ ReadPackfile sampleLib (samplePack 2 (refUnknownEntry ++ ofsEntry)) = ReadResult.panic := by
  decide

set_option maxRecDepth 100000 in
/-- C10 (the code at the failing input): a `REF_DELTA` whose delta does not
patch, followed by its base. The pass after the entry loop does not look at
what `PatchDelta` returns: `ReadPackfile` succeeds with an object without
bytes appended and no delta left. With the base first, `readEntry` returns the
patching error for the same entry. -/
theorem resolve_pass_unchecked_patch :
    sampleLib.PatchDelta blobHi.bytes [9] = none
    ∧ ReadPackfile sampleLib (samplePack 2 (refBadEntry ++ blobEntry))
      = ReadResult.ok
          { Version := 2, Objects := [blobHi, { typ := ObjType.blob, bytes := [] }],
            Checksum := polySum (magicPACK ++ be32 2 ++ be32 2 ++ (refBadEntry ++ blobEntry)),
            Deltas := [], offsets := [(45, 0), (12, -1)],
            hashes := [(sampleLib.objectHash blobHi, 0)] }
    ∧ ReadPackfile sampleLib (samplePack 2 (blobEntry ++ refBadEntry))
      = ReadResult.error Err.patching
          (some { Version := 2, Objects := [blobHi], Checksum := [], Deltas := [],
                  offsets := [(12, 0)], hashes := [(sampleLib.objectHash blobHi, 0)] }) := by
  decide

/-- The pass over the pending deltas in closed form: the deltas whose hash is
in the hash index each append one object built on their base, in order; the
others are kept, in order. -/
theorem resolveLoop_eq (L : Lib) (pf : Packfile) (objs0 : List Object)
    (hv : HashesValid pf.hashes objs0) (ds : List Delta) (more : List Object)
    (unresolved : List Delta) :
    resolveLoop L pf ds (objs0 ++ more) unresolved
      = some (objs0 ++ more
                ++ ds.filterMap (fun d => (baseOf pf.hashes objs0 d).map
                    (fun ref => resolvedObject L ref d)),
              unresolved ++ ds.filter (fun d => (mapGet pf.hashes d.Hash).isNone)) := by
  induction ds generalizing more unresolved with
  | nil => simp [resolveLoop]
  | cons d rest ih =>
    unfold resolveLoop
    cases hg : mapGet pf.hashes d.Hash with
    | none =>
      simp only [Packfile.ObjectByHash, hg]
      rw [ih]
      simp [baseOf, hg]
    | some idx =>
      have hi := hv _ _ hg
      have hlt : idx.toNat < objs0.length := by omega
      have hget0 : objs0.get? idx.toNat = some (objs0.get ⟨idx.toNat, hlt⟩) :=
        List.get?_eq_get hlt
      have hget : (objs0 ++ more).get? idx.toNat = some (objs0.get ⟨idx.toNat, hlt⟩) := by
        rw [List.get?_eq_getElem?, List.getElem?_append_left hlt, ← List.get?_eq_getElem?]
        exact hget0
      simp only [Packfile.ObjectByHash, hg, indexObjects, not_lt.mpr hi.1, if_false, hget]
      have hb : baseOf pf.hashes objs0 d = some (objs0.get ⟨idx.toNat, hlt⟩) := by
        simp only [baseOf, hg]
        exact hget0
      rw [List.append_assoc, ih]
      simp [List.filterMap_cons, hb, hg, resolvedObject]

/-- On success `ReadPackfile` returns the packfile of the entry loop with the
pass over its pending deltas applied: one object appended for each delta whose
hash is in the hash index, of the variant of its base and with the bytes
`PatchDelta` returned (not checked for `nil`), and `Deltas` the pending deltas
whose hash is not in the index, in their order. -/
theorem ReadPackfile_resolve_pass (L : Lib) (buffer : List Byte) (p : Packfile)
    (h : ReadPackfile L buffer = ReadResult.ok p) :
    ∃ s, readEntries L buffer = LoopResult.done s
      ∧ p.Objects = s.packfile.Objects
          ++ s.packfile.Deltas.filterMap (fun d =>
              (baseOf s.packfile.hashes s.packfile.Objects d).map
                (fun ref => resolvedObject L ref d))
      ∧ p.Deltas = s.packfile.Deltas.filter (fun d => (mapGet s.packfile.hashes d.Hash).isNone)
      ∧ (∀ d ∈ s.packfile.Deltas, (mapGet s.packfile.hashes d.Hash).isSome →
          ∃ ref, baseOf s.packfile.hashes s.packfile.Objects d = some ref)
      ∧ p.hashes = s.packfile.hashes ∧ p.offsets = s.packfile.offsets := by
  unfold ReadPackfile at h
  by_cases hlen : buffer.length < 20
  · simp [hlen] at h
  · simp only [hlen, if_false] at h
    by_cases hm : (readInto { Counter := 0, reader := buffer } 4).2 = magicPACK
    · simp only [hm, ne_eq, not_true_eq_false, if_false] at h
      cases hl : readEntries L buffer with
      | error e q => simp [hl] at h
      | panic => simp [hl] at h
      | diverge => simp [hl] at h
      | done s =>
        have hv := (readEntries_inv L buffer).1 s (by rw [hl])
        have hr := resolveLoop_eq L s.packfile s.packfile.Objects hv s.packfile.Deltas [] []
        simp only [List.append_nil, List.nil_append] at hr
        simp only [hl, hr] at h
        split_ifs at h
        cases h
        refine ⟨s, rfl, rfl, rfl, ?_, rfl, rfl⟩
        intro d _ hd
        cases hg : mapGet s.packfile.hashes d.Hash with
        | none => simp [hg] at hd
        | some idx =>
          have hi := hv _ _ hg
          have hlt : idx.toNat < s.packfile.Objects.length := by omega
          exact ⟨s.packfile.Objects.get ⟨idx.toNat, hlt⟩, by
            simp only [baseOf, hg]
            exact List.get?_eq_get hlt⟩
    · simp [hm] at h

/-! ## Reading back what `WritePackfile` wrote -/

set_option maxRecDepth 100000 in
/-- C1 (the code at the failing input): the pack written for the single blob
`hi`, each stream framed as `Write`, `Flush`, `Close` frame it. The entry is
read back right, but the reader has not asked for the final block, so that
`Counter + 4` leaves five bytes of the entry in front of the trailer: the
checksum read starts with the byte `ff` of the final block and the Adler-32, and
`ReadPackfile` returns the checksum mismatch. With two blobs the second entry
is read from the middle of the first and `ReadPackfile` returns the error of
`zlib.NewReader`. -/
theorem roundtrip_after_flush_fails :
    (WritePackfile sampleLib (NewPackfile [blobHi])).2.Checksum
      = polySum (packBody sampleLib (NewPackfile [blobHi]))
    ∧ readEntries sampleLib (WritePackfile sampleLib (NewPackfile [blobHi])).1
      = LoopResult.done
          { packfile :=
              { Version := 2, Objects := [blobHi], Checksum := [], Deltas := [],
                offsets := [(12, 0)], hashes := [(sampleLib.objectHash blobHi, 0)] },
            content := [0xff] ++ adler32 blobHi.bytes
              ++ polySum (packBody sampleLib (NewPackfile [blobHi])),
            offset := 32 }
    ∧ ReadPackfile sampleLib (WritePackfile sampleLib (NewPackfile [blobHi])).1
      = ReadResult.error Err.checksumMismatch
          (some { Version := 2, Objects := [blobHi],
                  Checksum := ([0xff] ++ adler32 blobHi.bytes
                    ++ polySum (packBody sampleLib (NewPackfile [blobHi]))).take 20,
                  Deltas := [], offsets := [(12, 0)],
                  hashes := [(sampleLib.objectHash blobHi, 0)] })
    ∧ ReadPackfile sampleLib (WritePackfile sampleLib (NewPackfile [blobHi, blobHi])).1
      = ReadResult.error Err.zlibOpen
          (some { Version := 2, Objects := [blobHi], Checksum := [], Deltas := [],
                  offsets := [(12, 0)], hashes := [(sampleLib.objectHash blobHi, 0)] }) := by
  decide

set_option maxRecDepth 100000 in
/-- A `REF_DELTA` on the blob `hi` followed by the blob: two objects, the
second patched from the first, and no delta left. -/
theorem ReadPackfile_resolve_pass_witness :
    ∃ s, readEntries sampleLib (samplePack 2 (refGoodEntry ++ blobEntry)) = LoopResult.done s
      ∧ [blobHi, { typ := ObjType.blob, bytes := [104, 105, 33, 34] }] = s.packfile.Objects
          ++ s.packfile.Deltas.filterMap (fun d =>
              (baseOf s.packfile.hashes s.packfile.Objects d).map
                (fun ref => resolvedObject sampleLib ref d))
      ∧ [] = s.packfile.Deltas.filter (fun d => (mapGet s.packfile.hashes d.Hash).isNone) :=
  have h := ReadPackfile_resolve_pass sampleLib (samplePack 2 (refGoodEntry ++ blobEntry))
    { Version := 2, Objects := [blobHi, { typ := ObjType.blob, bytes := [104, 105, 33, 34] }],
      Checksum := polySum (magicPACK ++ be32 2 ++ be32 2 ++ (refGoodEntry ++ blobEntry)),
      Deltas := [], offsets := [(47, 0), (12, -1)],
      hashes := [(sampleLib.objectHash blobHi, 0)] }
    (by decide)
  h.elim fun s hs => ⟨s, hs.1, hs.2.1, hs.2.2.1⟩

/-! ## The header `writeEntry` writes, read back -/

set_option maxRecDepth 4000 in
theorem bit7_iff : ∀ b : Byte, (b.val &&& 0x80 ≠ 0 ↔ 128 ≤ b.val) := by
  decide

set_option maxRecDepth 4000 in
theorem low7_eq : ∀ b : Byte, b.val &&& 0x7f = b.val % 128 := by
  decide

theorem PutUvarintLoop_length (fuel x : Nat) : 1 ≤ (PutUvarintLoop fuel x).length := by
  cases fuel with
  | zero => simp [PutUvarintLoop]
  | succ f =>
    unfold PutUvarintLoop
    split_ifs
    · simp
    · simp

/-- The first byte of the header, for any content length. -/
theorem entryHeader_first (o : Object) :
    ∃ first : Byte, entryHeader o = first :: PutUvarint (o.bytes.length >>> 4)
      ∧ first.val = 128 + 16 * typeCode o.typ + u64 o.bytes.length % 16 := by
  have hc := typeCode_range o.typ
  have hm : u64 o.bytes.length % 16 < 16 := Nat.mod_lt _ (by decide)
  have hlow : (byteOf (u64 o.bytes.length &&& 0x0f)).val = u64 o.bytes.length % 16 := by
    rw [show (0x0f : Nat) = 2 ^ 4 - 1 from rfl, Nat.and_pow_two_sub_one_eq_mod]
    simp only [byteOf]
    omega
  have hbits := first_byte_bits (typeCode o.typ) (by omega) (u64 o.bytes.length % 16) hm
  refine ⟨byteOf (0x80 ||| (typeCode o.typ <<< 4) ||| (u64 o.bytes.length % 16)), ?_, ?_⟩
  · simp only [entryHeader, hlow]
  · rw [hbits]
    simp only [byteOf]
    omega

/-- C21: in the header `writeEntry` writes, bit 7 of the first byte is set
exactly when at least one more size byte follows before the compressed data:
the bit is always set, and `PutUvarint` always writes at least one byte. -/
theorem writeEntry_continuation_bit (L : Lib) (w : bufWriter) (o : Object) :
    ∃ (first : Byte) (szb : List Byte),
      (writeEntry L w o).all = w.all ++ first :: szb ++ L.zlibWrite o.bytes
      ∧ entryHeader o = first :: szb
      ∧ (first.val &&& 0x80 ≠ 0 ↔ 1 ≤ szb.length)
      ∧ first.val &&& 0x80 ≠ 0
      ∧ 1 ≤ szb.length := by
  obtain ⟨first, hhead, hval⟩ := entryHeader_first o
  have hbit : first.val &&& 0x80 ≠ 0 := (bit7_iff first).mpr (by omega)
  have hlen : 1 ≤ (PutUvarint (o.bytes.length >>> 4)).length := PutUvarintLoop_length _ _
  refine ⟨first, PutUvarint (o.bytes.length >>> 4), ?_, hhead, ?_, hbit, hlen⟩
  · rw [all_writeEntry, entryBytes, hhead]
    simp
  · exact ⟨fun _ => hlen, fun _ => hbit⟩

/-- A chained byte list is bytes with bit 7 set followed by one with bit 7 clear. -/
theorem Chained_split (l : List Byte) (h : Chained l) :
    ∃ mid last, l = mid ++ [last] ∧ (∀ x ∈ mid, x.val &&& 0x80 ≠ 0) ∧ last.val &&& 0x80 = 0 := by
  induction l with
  | nil => exact absurd h (by simp [Chained])
  | cons b rest ih =>
    cases rest with
    | nil =>
      refine ⟨[], b, rfl, by simp, ?_⟩
      have hb : b.val < 128 := h
      by_contra hne
      have := (bit7_iff b).mp hne
      omega
    | cons c rest2 =>
      obtain ⟨hb, hrest⟩ := h
      obtain ⟨mid, last, hl, hmid, hlast⟩ := ih hrest
      refine ⟨b :: mid, last, by rw [hl]; rfl, ?_, hlast⟩
      intro x hx
      rcases List.mem_cons.mp hx with rfl | hx
      · exact (bit7_iff x).mpr hb
      · exact hmid x hx

/-- The sum the reading loop forms is the value of the 7-bit groups, shifted. -/
theorem sizeSum_eq (l : List Byte) (shift : Nat) :
    sizeSum l shift = 2 ^ shift * groupsValue l := by
  induction l generalizing shift with
  | nil => simp [sizeSum, groupsValue]
  | cons b rest ih =>
    simp only [sizeSum, groupsValue, ih, low7_eq, pow_add]
    ring

theorem nibble_join (n : Nat) (hn : n < 2 ^ 63) :
    (n % 16 + (0 + 2 ^ 4 * (n / 2 ^ 4)) % 2 ^ 64) % 2 ^ 64 = n := by
  omega

/-- C22: for an object of any of the four types whose content has `n < 2 ^ 63`
bytes, reading the header `writeEntry` writes the way `readEntry` does (the
first byte split into type and low size bits, then `readMSBEncodedSize` at
shift 4) gives the type code written and the size `n`, also as the `int` that
`inflate` takes, and leaves the reader right after the header, `Counter` being
the length of the header. -/
theorem header_roundtrip (o : Object) (rest : List Byte) (b : Byte)
    (hn : o.bytes.length < 2 ^ 63) :
    entryType (readByte { Counter := 0, reader := entryHeader o ++ rest } b).2 = typeCode o.typ
    ∧ readEntrySize (readByte { Counter := 0, reader := entryHeader o ++ rest } b).1
        (readByte { Counter := 0, reader := entryHeader o ++ rest } b).2
      = some (o.bytes.length, { Counter := (entryHeader o).length, reader := rest })
    ∧ i64 (o.bytes.length : Int) = (o.bytes.length : Int) := by
  obtain ⟨first, hhead, hval⟩ := entryHeader_first o
  have hc := typeCode_range o.typ
  have hu : u64 o.bytes.length = o.bytes.length := Nat.mod_eq_of_lt (by omega)
  rw [hu] at hval
  have hsz := PutUvarint_spec (o.bytes.length >>> 4) (by
    rw [Nat.shiftRight_eq_div_pow]
    omega)
  obtain ⟨mid, last, hsplit, hmid, hlast⟩ := Chained_split _ hsz.1
  have hbit : first.val &&& 0x80 ≠ 0 := (bit7_iff first).mpr (by omega)
  have hread : readByte { Counter := 0, reader := entryHeader o ++ rest } b
      = ({ Counter := 1, reader := mid ++ last :: rest }, first) := by
    rw [hhead, hsplit]
    simp [readByte]
  rw [hread]
  refine ⟨?_, ?_, i64_of_small _ (by omega) (by exact_mod_cast hn)⟩
  · show entryType first = typeCode o.typ
    rw [entryType_eq, hval]
    omega
  · show readEntrySize { Counter := 1, reader := mid ++ last :: rest } first = _
    simp only [readEntrySize, hbit, ne_eq, not_false_eq_true, if_true, readMSBEncodedSize]
    rw [readMSBLoop_spec mid last rest 0 0 4 1 hmid hlast, ← hsplit, sizeSum_eq, hsz.2,
      hhead, hsplit, low_nibble, hval, Nat.shiftRight_eq_div_pow]
    simp only [u64, List.length_cons, List.length_append, List.length_singleton]
    have h1 : (128 + 16 * typeCode o.typ + o.bytes.length % 16) % 16 = o.bytes.length % 16 := by
      omega
    have h2 : (o.bytes.length % 16 + (0 + 2 ^ 4 * (o.bytes.length / 2 ^ 4)) % 2 ^ 64) % 2 ^ 64
        = o.bytes.length := nibble_join _ hn
    rw [h1, h2]
    simp only [List.length_nil]
    rw [show 1 + (mid.length + 1) = mid.length + (0 + 1) + 1 from by omega]

set_option maxRecDepth 100000 in
/-- A blob of three bytes, followed by the first bytes of a zlib stream: type
3, size 3, two header bytes read. -/
theorem header_roundtrip_witness :
    entryType (readByte (packEntryReader.mk 0
        (entryHeader (Object.mk ObjType.blob [1, 2, 3]) ++ [0x78, 0x01])) 0).2 = 3
    ∧ readEntrySize
        (readByte (packEntryReader.mk 0
          (entryHeader (Object.mk ObjType.blob [1, 2, 3]) ++ [0x78, 0x01])) 0).1
        (readByte (packEntryReader.mk 0
          (entryHeader (Object.mk ObjType.blob [1, 2, 3]) ++ [0x78, 0x01])) 0).2
      = some (3, packEntryReader.mk 2 [0x78, 0x01]) :=
  have h := header_roundtrip ⟨ObjType.blob, [1, 2, 3]⟩ [0x78, 0x01] 0 (by decide)
  ⟨h.1, h.2.1⟩

/-! ## The two reading loops at the end of the input -/

/-- The loop of `readMSBEncodedSize` never exits when every byte left has bit 7
set (and, with no byte left, the byte read last has it set). -/
theorem readMSBLoop_none (data : List Byte) (b : Byte) (sz shift c : Nat)
    (hdata : ∀ x ∈ data, x.val &&& 0x80 ≠ 0) (hb : data = [] → b.val &&& 0x80 ≠ 0) :
    readMSBLoop data b sz shift c = none := by
  induction data generalizing b sz shift c with
  | nil => simp [readMSBLoop, hb rfl]
  | cons x rest ih =>
    have hx : x.val &&& 0x80 ≠ 0 := hdata x (List.mem_cons_self _ _)
    simp only [readMSBLoop, hx, if_false]
    exact ih x _ _ _ (fun y hy => hdata y (List.mem_cons_of_mem _ hy)) (fun _ => hx)

/-- The loop of `readMSBEncodedSize` exits exactly when a byte with bit 7 clear
is left, or nothing is left and the byte read last has bit 7 clear. -/
theorem readMSBLoop_isSome_iff (data : List Byte) (b : Byte) (sz shift c : Nat) :
    (readMSBLoop data b sz shift c).isSome
      ↔ (∃ x ∈ data, x.val &&& 0x80 = 0) ∨ (data = [] ∧ b.val &&& 0x80 = 0) := by
  induction data generalizing b sz shift c with
  | nil =>
    by_cases hb : b.val &&& 0x80 = 0
    · simp [readMSBLoop, hb]
    · simp [readMSBLoop, hb]
  | cons x rest ih =>
    by_cases hx : x.val &&& 0x80 = 0
    · simp only [readMSBLoop, hx, if_true, Option.isSome_some, true_iff]
      exact Or.inl ⟨x, List.mem_cons_self _ _, hx⟩
    · simp only [readMSBLoop, hx, if_false]
      rw [ih]
      constructor
      · rintro (⟨y, hy, hy0⟩ | ⟨hrest, hx0⟩)
        · exact Or.inl ⟨y, List.mem_cons_of_mem _ hy, hy0⟩
        · exact absurd hx0 hx
      · rintro (⟨y, hy, hy0⟩ | ⟨hnil, _⟩)
        · rcases List.mem_cons.mp hy with rfl | hy
          · exact absurd hy0 hx
          · exact Or.inl ⟨y, hy, hy0⟩
        · cases hnil

/-- The negative-offset loop never exits when the byte read last and every byte
left have bit 7 set. -/
theorem readOffsetLoop_none (data : List Byte) (b : Byte) (noffset : Int) (c : Nat)
    (hb : b.val &&& 0x80 ≠ 0) (hdata : ∀ x ∈ data, x.val &&& 0x80 ≠ 0) :
    readOffsetLoop data b noffset c = none := by
  induction data generalizing b noffset c with
  | nil => simp [readOffsetLoop, hb]
  | cons x rest ih =>
    simp only [readOffsetLoop, hb, ne_eq, not_false_eq_true, if_true]
    exact ih x _ _ (hdata x (List.mem_cons_self _ _))
      (fun y hy => hdata y (List.mem_cons_of_mem _ hy))

set_option maxRecDepth 100000 in
/-- C23 (the code at the failing input): on a stream that ends right after a
byte with bit 7 set, neither loop returns. `readMSBEncodedSize` on the single
byte `80` does not return; the negative-offset loop does not return on the
single byte `80`, nor on the empty stream when the header byte it keeps has
bit 7 set; `ReadPackfile` does not return on a pack cut short inside the size
bytes or inside the offset bytes of an entry. -/
theorem loops_spin_at_end_of_input :
    readMSBEncodedSize { Counter := 0, reader := [0x80] } 4 = none
    ∧ readNegativeOffset { Counter := 0, reader := [0x80] } 0x60 = none
    ∧ readNegativeOffset { Counter := 0, reader := [] } 0xe0 = none
    ∧ cutInSize.length = 21 ∧ cutInOffset.length = 21
    ∧ ReadPackfile sampleLib cutInSize = ReadResult.diverge
    ∧ ReadPackfile sampleLib cutInOffset = ReadResult.diverge := by
  decide

/-! ## Retrieval by hash -/

theorem indexObjects_append (objs more : List Object) (index : Int) (found : Object)
    (h : indexObjects objs index = ObjRef.obj found) :
    indexObjects (objs ++ more) index = ObjRef.obj found := by
  unfold indexObjects at h ⊢
  by_cases hneg : index < 0
  · simp [hneg] at h
  · simp only [hneg, if_false] at h ⊢
    cases hget : objs.get? index.toNat with
    | none =>
      simp only [hget] at h
      cases h
    | some o =>
      simp only [hget] at h
      have hlt : index.toNat < objs.length := (List.get?_eq_some.mp hget).1
      rw [List.get?_eq_getElem?, List.getElem?_append_left hlt, ← List.get?_eq_getElem?, hget]
      exact h

theorem indexObjects_last (objs : List Object) (o : Object) :
    indexObjects (objs ++ [o]) (((objs ++ [o]).length : Int) - 1) = ObjRef.obj o := by
  have hnn : ¬ (((objs ++ [o]).length : Int) - 1 < 0) := by
    simp only [List.length_append, List.length_singleton]
    push_cast
    omega
  have hidx : (((objs ++ [o]).length : Int) - 1).toNat = objs.length := by
    simp only [List.length_append, List.length_singleton]
    push_cast
    omega
  simp only [indexObjects, hnn, if_false, hidx]
  rw [List.get?_eq_getElem?, List.getElem?_append_right (Nat.le_refl _)]
  simp

/-- More objects at the end of `Objects`, under the same hash index, leave
what was retrievable retrievable. -/
theorem Retrievable_append (L : Lib) (r r' : Packfile) (more : List Object) (o : Object)
    (hh : r'.hashes = r.hashes) (ho : r'.Objects = r.Objects ++ more)
    (h : Retrievable L r o) : Retrievable L r' o := by
  obtain ⟨found, hf, hhash⟩ := h
  refine ⟨found, ?_, hhash⟩
  unfold Packfile.ObjectByHash at hf ⊢
  rw [hh, ho]
  cases hg : mapGet r.hashes (L.objectHash o) with
  | none => simp [hg] at hf
  | some index =>
    simp only [hg] at hf ⊢
    exact indexObjects_append _ _ _ _ hf

/-- The object just put is retrievable. -/
theorem Retrievable_PutObject_new (L : Lib) (r : Packfile) (o : Object) :
    Retrievable L (r.PutObject L o) o := by
  refine ⟨o, ?_, rfl⟩
  simp only [Packfile.ObjectByHash, Packfile.PutObject, mapSet, mapGet, if_true]
  exact indexObjects_last r.Objects o

/-- Putting an object leaves what was retrievable retrievable. -/
theorem Retrievable_PutObject_old (L : Lib) (r : Packfile) (o put : Object)
    (h : Retrievable L r o) : Retrievable L (r.PutObject L put) o := by
  by_cases hk : L.objectHash put = L.objectHash o
  · refine ⟨put, ?_, hk⟩
    simp only [Packfile.ObjectByHash, Packfile.PutObject, mapSet, mapGet, hk, if_true]
    exact indexObjects_last r.Objects put
  · obtain ⟨found, hf, hhash⟩ := h
    refine ⟨found, ?_, hhash⟩
    unfold Packfile.ObjectByHash at hf ⊢
    simp only [Packfile.PutObject, mapSet, mapGet, hk, if_false]
    cases hg : mapGet r.hashes (L.objectHash o) with
    | none => simp [hg] at hf
    | some index =>
      simp only [hg] at hf ⊢
      exact indexObjects_append _ _ _ _ hf

theorem PutObject_all_retrievable (L : Lib) (r : Packfile) (put : Object)
    (h : ∀ o ∈ r.Objects, Retrievable L r o) :
    ∀ o ∈ (r.PutObject L put).Objects, Retrievable L (r.PutObject L put) o := by
  intro o ho
  have ho' : o ∈ r.Objects ++ [put] := ho
  rcases List.mem_append.mp ho' with hin | hin
  · exact Retrievable_PutObject_old L r o put (h o hin)
  · rw [List.mem_singleton.mp hin]
    exact Retrievable_PutObject_new L r put

/-- A sequence of `PutObject` calls: the objects are appended in order, the
hash index stays within `Objects`, what was retrievable stays so, and every
object put is retrievable. -/
theorem foldl_PutObject (L : Lib) (os : List Object) (r : Packfile)
    (hv : HashesValid r.hashes r.Objects) :
    (os.foldl (Packfile.PutObject L) r).Objects = r.Objects ++ os
    ∧ HashesValid (os.foldl (Packfile.PutObject L) r).hashes
        (os.foldl (Packfile.PutObject L) r).Objects
    ∧ (∀ o, Retrievable L r o → Retrievable L (os.foldl (Packfile.PutObject L) r) o)
    ∧ (∀ o ∈ os, Retrievable L (os.foldl (Packfile.PutObject L) r) o) := by
  induction os generalizing r with
  | nil =>
    refine ⟨by simp, hv, fun o h => h, ?_⟩
    intro o ho
    cases ho
  | cons put rest ih =>
    obtain ⟨h1, h2, h3, h4⟩ := ih (r.PutObject L put) (HashesValid_PutObject L r put hv)
    simp only [List.foldl_cons]
    refine ⟨?_, h2, ?_, ?_⟩
    · rw [h1]
      simp [Packfile.PutObject]
    · intro o ho
      exact h3 o (Retrievable_PutObject_old L r o put ho)
    · intro o ho
      rcases List.mem_cons.mp ho with rfl | ho
      · exact h3 o (Retrievable_PutObject_new L r o)
      · exact h4 o ho

/-- An entry read leaves every stored object retrievable. -/
theorem readEntry_ok_retrievable (L : Lib) (pf p : Packfile) (reader r : packEntryReader)
    (offset : Int) (h : readEntry L pf reader offset = EntryResult.ok p r)
    (hall : ∀ o ∈ pf.Objects, Retrievable L pf o) : ∀ o ∈ p.Objects, Retrievable L p o := by
  rcases readEntry_cases L pf reader offset with h' | h' | ⟨e, _, _, h'⟩ | ⟨d, r', h'⟩ | ⟨o, r', h'⟩
  · rw [h'] at h; cases h
  · rw [h'] at h; cases h
  · rw [h'] at h; cases h
  · rw [h'] at h; cases h; exact hall
  · rw [h'] at h; cases h; exact PutObject_all_retrievable L pf o hall

/-- The entry loop leaves every stored object retrievable. -/
theorem entryLoop_retrievable (L : Lib) (n : Nat) (s s' : LoopState)
    (hall : ∀ o ∈ s.packfile.Objects, Retrievable L s.packfile o)
    (h : entryLoop L n s = LoopResult.done s') :
    ∀ o ∈ s'.packfile.Objects, Retrievable L s'.packfile o := by
  induction n generalizing s with
  | zero =>
    simp only [entryLoop] at h
    cases h
    exact hall
  | succ n ih =>
    cases hre : readEntry L s.packfile { Counter := 0, reader := s.content } s.offset with
    | error e p => simp only [entryLoop, hre] at h; cases h
    | panic => simp only [entryLoop, hre] at h; cases h
    | diverge => simp only [entryLoop, hre] at h; cases h
    | ok p r =>
      have hp := readEntry_ok_retrievable L _ _ _ _ _ hre hall
      by_cases hlen : s.content.length < r.Counter + 4
      · simp only [entryLoop, hre, hlen, if_true] at h
        cases h
      · simp only [entryLoop, hre, hlen, if_false] at h
        exact ih _ (by exact hp) h

theorem readEntries_retrievable (L : Lib) (buffer : List Byte) (s : LoopState)
    (h : readEntries L buffer = LoopResult.done s) :
    ∀ o ∈ s.packfile.Objects, Retrievable L s.packfile o := by
  unfold readEntries at h
  refine entryLoop_retrievable L _ _ s ?_ h
  intro o ho
  cases ho

/-- C24 (amended): `NewPackfile(objects)` leaves the hash index empty, so that
`ObjectByHash` returns nil for every hash. After a sequence of `PutObject`
calls on it, the objects put follow `objects` in order and every object put is
retrievable by its hash; on `NewPackfile` of no objects that is every object in
`Objects`. In the packfile of a successful `ReadPackfile`, every object the
entry loop stored (they come first in `Objects`) is retrievable by its hash.
In all three, every index in the hash index is an index into `Objects`. -/
theorem hash_index_inv (L : Lib) (objects os : List Object) (buffer : List Byte) (p : Packfile)
    (h : ReadPackfile L buffer = ReadResult.ok p) :
    (HashesValid (NewPackfile objects).hashes (NewPackfile objects).Objects
      ∧ ∀ hash, (NewPackfile objects).ObjectByHash hash = ObjRef.nil)
    ∧ ((os.foldl (Packfile.PutObject L) (NewPackfile objects)).Objects = objects ++ os
      ∧ HashesValid (os.foldl (Packfile.PutObject L) (NewPackfile objects)).hashes
          (os.foldl (Packfile.PutObject L) (NewPackfile objects)).Objects
      ∧ ∀ o ∈ os, Retrievable L (os.foldl (Packfile.PutObject L) (NewPackfile objects)) o)
    ∧ (∀ o ∈ (os.foldl (Packfile.PutObject L) (NewPackfile [])).Objects,
        Retrievable L (os.foldl (Packfile.PutObject L) (NewPackfile [])) o)
    ∧ (HashesValid p.hashes p.Objects
      ∧ ∃ s more, readEntries L buffer = LoopResult.done s
          ∧ p.Objects = s.packfile.Objects ++ more
          ∧ ∀ o ∈ s.packfile.Objects, Retrievable L p o) := by
  have hnew : ∀ objs : List Object,
      HashesValid (NewPackfile objs).hashes (NewPackfile objs).Objects := by
    intro objs k v hk
    simp [NewPackfile, mapGet] at hk
  obtain ⟨f1, f2, _, f4⟩ := foldl_PutObject L os (NewPackfile objects) (hnew objects)
  obtain ⟨g1, _, _, g4⟩ := foldl_PutObject L os (NewPackfile []) (hnew [])
  obtain ⟨s, hs, hobjs, _, _, hhashes, _⟩ := ReadPackfile_resolve_pass L buffer p h
  refine ⟨⟨hnew objects, fun hash => rfl⟩, ⟨f1, f2, f4⟩, ?_, ?_, s, _, hs, hobjs, ?_⟩
  · intro o ho
    rw [g1] at ho
    exact g4 o (by simpa [NewPackfile] using ho)
  · rw [hhashes, hobjs]
    exact HashesValid_append _ _ _ ((readEntries_inv L buffer).1 s hs)
  · intro o ho
    exact Retrievable_append L s.packfile p _ o hhashes hobjs
      (readEntries_retrievable L buffer s hs o ho)

set_option maxRecDepth 100000 in
/-- The blob `hi` put twice on an empty packfile, and the pack of a `REF_DELTA`
on the blob followed by the blob. -/
theorem hash_index_inv_witness :
    (∀ o ∈ ([blobHi, blobHi].foldl (Packfile.PutObject sampleLib) (NewPackfile [])).Objects,
        Retrievable sampleLib
          ([blobHi, blobHi].foldl (Packfile.PutObject sampleLib) (NewPackfile [])) o)
    ∧ HashesValid resolvedPack.hashes resolvedPack.Objects :=
  have h := hash_index_inv sampleLib [] [blobHi, blobHi]
    (samplePack 2 (refGoodEntry ++ blobEntry)) resolvedPack (by decide)
  ⟨h.2.2.1, h.2.2.2.1⟩

set_option maxRecDepth 100000 in
/-- C24 (as stated, refuted): `NewPackfile` of the blob `hi` holds the blob, and
`ObjectByHash` of its hash returns nil. Also, the pack of a `REF_DELTA` on the
blob followed by the blob is read with success, and `ObjectByHash` returns nil
for the hash of the patched blob that the pass over the pending deltas
appended. -/
theorem NewPackfile_object_not_retrievable :
    (NewPackfile [blobHi]).Objects = [blobHi]
    ∧ (NewPackfile [blobHi]).ObjectByHash (sampleLib.objectHash blobHi) = ObjRef.nil
    ∧ ReadPackfile sampleLib (samplePack 2 (refGoodEntry ++ blobEntry)) = ReadResult.ok resolvedPack
    ∧ resolvedPack.Objects.get? 1 = some { typ := ObjType.blob, bytes := [104, 105, 33, 34] }
    ∧ resolvedPack.ObjectByHash
        (sampleLib.objectHash { typ := ObjType.blob, bytes := [104, 105, 33, 34] })
      = ObjRef.nil := by
  decide

end Pack

/-! # The ledger -/

namespace Ledger

open Pack (Byte byteOf mapGet mapSet)

/-! ## Block hash and `NewBlock` -/

theorem leValue_le32 (x : Nat) : leValue (le32 x) = x % 2 ^ 32 := by
  simp only [leValue, le32, leBytes, List.range_succ, List.range_zero, List.nil_append,
    List.cons_append, List.map_cons, List.map_nil, List.foldr, byteOf]
  omega

theorem leValue_le64 (x : Int) : leValue (le64 x) = (x % 2 ^ 64).toNat := by
  simp only [leValue, le64, leBytes, List.range_succ, List.range_zero, List.nil_append,
    List.cons_append, List.map_cons, List.map_nil, List.foldr, byteOf]
  have h : (x % 2 ^ 64).toNat < 2 ^ 64 := by omega
  generalize (x % 2 ^ 64).toNat = n at h
  omega

/-- C11: the block hash is SHA-256 of SHA-256 of the previous block hash, the
Merkle root (both as their bytes), the version (4 bytes), the timestamp
(8 bytes), the bits and the nonce (4 bytes each), the integers little-endian;
it has 32 bytes and does not depend on the list of transactions. -/
theorem Block_Hash_eq (X : Ext) (b : Block) (transactions : List Envelope) :
    b.Hash X = X.SHA256 (X.SHA256 (b.PreviousBlockHash ++ b.MerkleRootHash ++ le32 b.Version
        ++ le64 b.Timestamp ++ le32 b.Bits ++ le32 b.Nonce))
    ∧ (b.Hash X).length = 32
    ∧ Block.Hash X { b with Transactions := transactions } = b.Hash X
    ∧ (le32 b.Version).length = 4 ∧ leValue (le32 b.Version) = b.Version % 2 ^ 32
    ∧ (le64 b.Timestamp).length = 8 ∧ leValue (le64 b.Timestamp) = (b.Timestamp % 2 ^ 64).toNat
    ∧ (le32 b.Bits).length = 4 ∧ leValue (le32 b.Bits) = b.Bits % 2 ^ 32
    ∧ (le32 b.Nonce).length = 4 ∧ leValue (le32 b.Nonce) = b.Nonce % 2 ^ 32 := by
  have h : b.Hash X = X.SHA256 (X.SHA256 (b.PreviousBlockHash ++ b.MerkleRootHash
      ++ le32 b.Version ++ le64 b.Timestamp ++ le32 b.Bits ++ le32 b.Nonce)) := by
    simp [Block.Hash]
  refine ⟨h, ?_, rfl, ?_, leValue_le32 _, ?_, leValue_le64 _, ?_, leValue_le32 _, ?_,
    leValue_le32 _⟩
  · rw [h]; exact X.SHA256_length _
  · simp [le32, leBytes]
  · simp [le64, leBytes]
  · simp [le32, leBytes]
  · simp [le32, leBytes]

/-- C12: `NewBlock` on the empty list returns a block with the empty hash, 32
zero bytes, as Merkle root, version 1, nonce 0 and the given previous hash and
bits; on a list that is not empty the Merkle root is the root of the tree over
the encodings of the envelopes in list order (and `NewBlock` fails when the
tree does). -/
theorem NewBlock_spec (X : Ext) (now : Int) (previousBlockHash : Hash) (bits : Nat)
    (transactions : List Envelope) :
    NewBlock X now previousBlockHash bits []
      = some { Version := 1, PreviousBlockHash := previousBlockHash,
               MerkleRootHash := EmptyHash, Timestamp := now, Bits := bits, Nonce := 0,
               Transactions := [] }
    ∧ EmptyHash = List.replicate 32 0
    ∧ (transactions ≠ [] →
        NewBlock X now previousBlockHash bits transactions
          = (X.merkleTree (transactions.map X.gobEncodeEnvelope)).map (fun root =>
              { Version := 1, PreviousBlockHash := previousBlockHash, MerkleRootHash := root,
                Timestamp := now, Bits := bits, Nonce := 0, Transactions := transactions })) := by
  refine ⟨by simp [NewBlock, BLOCK_VERSION], rfl, ?_⟩
  intro hne
  have hlen : 0 < (transactions.map X.gobEncodeEnvelope).length := by
    simpa using List.length_pos.mpr hne
  unfold NewBlock
  simp only [gt_iff_lt, hlen, if_true, merkleRoot, BLOCK_VERSION]
  cases X.merkleTree (transactions.map X.gobEncodeEnvelope) <;> simp

/-! ## Envelopes -/

/-- C13: the hash of an envelope is SHA-256 of the transaction's hash, the
previous envelope hash and the next public key, one after the other; the
signature and the public key do not enter. -/
theorem Envelope_Hash_eq (X : Ext) (e : Envelope) (sigR sigS publicKey : List Byte) :
    e.Hash X = X.SHA256 (e.Transaction.Hash X ++ e.PreviousEnvelopeHash ++ e.NextPublicKey)
    ∧ Envelope.Hash X { e with SignatureR := sigR, SignatureS := sigS, PublicKey := publicKey }
        = e.Hash X := by
  exact ⟨rfl, rfl⟩

theorem bigSetBytes_cons (b : Byte) (bs : List Byte) :
    bigSetBytes (b :: bs) = b.val * 256 ^ bs.length + bigSetBytes bs := by
  have h : ∀ (l : List Byte) (a : Nat),
      l.foldl (fun acc b => acc * 256 + b.val) a
        = a * 256 ^ l.length + l.foldl (fun acc b => acc * 256 + b.val) 0 := by
    intro l
    induction l with
    | nil => intro a; simp
    | cons x xs ih =>
      intro a
      simp only [List.foldl, List.length_cons]
      rw [ih (a * 256 + x.val), ih (0 * 256 + x.val)]
      ring
  simp only [bigSetBytes, List.foldl]
  rw [h bs (0 * 256 + b.val)]
  ring

/-- The loop of `big.Int.Bytes` puts the number `n` in front of `acc`. -/
theorem bigBytesLoop_value (fuel n : Nat) (acc : List Byte) (h : n ≤ fuel) :
    bigSetBytes (bigBytesLoop fuel n acc) = n * 256 ^ acc.length + bigSetBytes acc := by
  induction fuel generalizing n acc with
  | zero =>
    have : n = 0 := by omega
    subst this
    simp [bigBytesLoop]
  | succ f ih =>
    unfold bigBytesLoop
    by_cases hn : n = 0
    · subst hn
      simp
    · rw [if_neg hn, ih (n / 256) (byteOf n :: acc) (by omega), bigSetBytes_cons]
      simp only [List.length_cons, byteOf, pow_succ]
      have hd := Nat.div_add_mod n 256
      generalize 256 ^ acc.length = p
      generalize bigSetBytes acc = q
      calc n / 256 * (p * 256) + (n % 256 * p + q)
          = (256 * (n / 256) + n % 256) * p + q := by ring
        _ = n * p + q := by rw [hd]

/-- What `big.Int.Bytes` gives, `big.Int.SetBytes` reads back. -/
theorem bigSetBytes_bigBytes (n : Nat) : bigSetBytes (bigBytes n) = n := by
  unfold bigBytes
  rw [bigBytesLoop_value n n [] (Nat.le_refl n)]
  simp [bigSetBytes]

/-- What a successful `Sign` leaves: the envelope before, with the key and the
signature set. -/
theorem Sign_ok (X : Ext) (e after : Envelope) (privateKey : PrivateKey) (rnd : Nat)
    (h : e.Sign X privateKey rnd = (after, true)) :
    ∃ pubkey sigR sigS,
      X.EncodeECDSAPublicKey privateKey.PublicKey = some pubkey
      ∧ X.ecdsaSign privateKey (after.Hash X) rnd = some (sigR, sigS)
      ∧ after =
          { PreviousEnvelopeHash := e.PreviousEnvelopeHash,
            SignatureR := bigBytes sigR,
            SignatureS := bigBytes sigS,
            PublicKey := pubkey,
            NextPublicKey :=
              if e.NextPublicKey.length = 0 ∨ e.NextPublicKey = e.PublicKey then pubkey
              else e.NextPublicKey,
            Transaction := e.Transaction } := by
  unfold Envelope.Sign at h
  cases hk : X.EncodeECDSAPublicKey privateKey.PublicKey with
  | none => simp [hk] at h
  | some pubkey =>
    simp only [hk] at h
    split at h
    · simp at h
    · rename_i sigR sigS hsig
      simp only [Prod.mk.injEq, and_true] at h
      refine ⟨pubkey, sigR, sigS, rfl, ?_, ?_⟩
      · rw [← h]
        rw [← hsig]
        rfl
      · rw [← h]
        split_ifs <;> rfl

/-- C14: after a successful `Sign` with a key whose encoded public key is `P`,
`PublicKey` is `P`; `NextPublicKey` is `P` if it was empty or equal to the old
`PublicKey` before the call and is unchanged otherwise; `PreviousEnvelopeHash`
and `Transaction` are unchanged. -/
theorem Sign_fields (X : Ext) (e after : Envelope) (privateKey : PrivateKey) (rnd : Nat)
    (P : List Byte) (hP : X.EncodeECDSAPublicKey privateKey.PublicKey = some P)
    (h : e.Sign X privateKey rnd = (after, true)) :
    after.PublicKey = P
    ∧ (e.NextPublicKey = [] ∨ e.NextPublicKey = e.PublicKey → after.NextPublicKey = P)
    ∧ (¬ (e.NextPublicKey = [] ∨ e.NextPublicKey = e.PublicKey) →
        after.NextPublicKey = e.NextPublicKey)
    ∧ after.PreviousEnvelopeHash = e.PreviousEnvelopeHash
    ∧ after.Transaction = e.Transaction := by
  obtain ⟨pubkey, sigR, sigS, hk, _, hafter⟩ := Sign_ok X e after privateKey rnd h
  rw [hP] at hk
  cases hk
  have hlen : e.NextPublicKey.length = 0 ↔ e.NextPublicKey = [] := List.length_eq_zero
  subst hafter
  refine ⟨rfl, ?_, ?_, rfl, rfl⟩
  · intro hc
    rw [← hlen] at hc
    simp only [if_pos hc]
  · intro hc
    rw [← hlen] at hc
    simp only [if_neg hc]

set_option maxRecDepth 100000 in
/-- The unsigned sample envelope, signed with the sample key. -/
theorem Sign_fields_witness :
    (sampleEnvelope.Sign sampleExt sampleKey 17).1.PublicKey = [5, 7]
    ∧ (sampleEnvelope.Sign sampleExt sampleKey 17).1.NextPublicKey = [5, 7]
    ∧ (sampleEnvelope.Sign sampleExt sampleKey 17).1.Transaction = sampleEnvelope.Transaction :=
  have h := Sign_fields sampleExt sampleEnvelope (sampleEnvelope.Sign sampleExt sampleKey 17).1
    sampleKey 17 [5, 7] (by decide) (by decide)
  ⟨h.1, h.2.1 (Or.inl rfl), h.2.2.2.2⟩

/-- C15: if `Sign` succeeds then `Verify` on the signed envelope returns true
and no error, given that decoding an encoded public key gives the key back and
that ECDSA verification under the public key of the signing key accepts what
ECDSA signing with that key produced for the same digest: the digest verified
is the digest signed, and `r` and `s` are read back from their bytes. -/
theorem Sign_then_Verify (X : Ext) (e after : Envelope) (privateKey : PrivateKey) (rnd : Nat)
    (hdecode : ∀ key bs, X.EncodeECDSAPublicKey key = some bs →
        X.DecodeECDSAPublicKey bs = some key)
    (hverify : ∀ digest rnd r s, X.ecdsaSign privateKey digest rnd = some (r, s) →
        X.ecdsaVerify privateKey.PublicKey digest r s = true)
    (h : e.Sign X privateKey rnd = (after, true)) :
    (after.Verify X).ok = true ∧ (after.Verify X).err = false
    ∧ X.ecdsaSign privateKey (after.Hash X) rnd
        = some (bigSetBytes after.SignatureR, bigSetBytes after.SignatureS) := by
  obtain ⟨pubkey, sigR, sigS, hk, hsig, hafter⟩ := Sign_ok X e after privateKey rnd h
  have hR : bigSetBytes after.SignatureR = sigR := by
    rw [hafter]
    exact bigSetBytes_bigBytes sigR
  have hS : bigSetBytes after.SignatureS = sigS := by
    rw [hafter]
    exact bigSetBytes_bigBytes sigS
  have hpk : after.PublicKey = pubkey := by rw [hafter]
  have hd : X.DecodeECDSAPublicKey after.PublicKey = some privateKey.PublicKey := by
    rw [hpk]
    exact hdecode _ _ hk
  have hv := hverify (after.Hash X) rnd sigR sigS hsig
  refine ⟨?_, ?_, ?_⟩
  · simp only [Envelope.Verify, hd, hR, hS, hv]
  · simp only [Envelope.Verify, hd]
  · rw [hR, hS, hsig]

set_option maxRecDepth 100000 in
/-- The sample envelope, signed with the sample key, verifies. -/
theorem Sign_then_Verify_witness :
    ((sampleEnvelope.Sign sampleExt sampleKey 17).1.Verify sampleExt).ok = true
    ∧ ((sampleEnvelope.Sign sampleExt sampleKey 17).1.Verify sampleExt).err = false :=
  have h := Sign_then_Verify sampleExt sampleEnvelope
    (sampleEnvelope.Sign sampleExt sampleKey 17).1 sampleKey 17
    (by
      intro key bs hk
      simp only [sampleExt, twoByteKey] at hk
      split_ifs at hk with hlt
      cases hk
      simp only [sampleExt, twoByteKeyDecode, byteOf, Nat.mod_eq_of_lt hlt.1,
        Nat.mod_eq_of_lt hlt.2])
    (by
      intro digest rnd r s hs
      simp only [sampleExt, toySign, sampleKey, Option.some.injEq, Prod.mk.injEq] at hs
      simp only [sampleExt, toyVerify, sampleKey, ← hs.1, ← hs.2, decide_True])
    (by decide)
  ⟨h.1, h.2.1⟩

/-- C16: `Verify` returns an error exactly when the public key does not decode,
and then false; otherwise it returns what ECDSA verification gives for `r` and
`s` read from the signature bytes, the envelope hash and the decoded key; the
envelope is as before. -/
theorem Verify_spec (X : Ext) (e : Envelope) :
    ((e.Verify X).err = true ↔ X.DecodeECDSAPublicKey e.PublicKey = none)
    ∧ ((e.Verify X).err = true → (e.Verify X).ok = false)
    ∧ (∀ publicKey, X.DecodeECDSAPublicKey e.PublicKey = some publicKey →
        (e.Verify X).err = false
        ∧ (e.Verify X).ok
            = X.ecdsaVerify publicKey (e.Hash X) (bigSetBytes e.SignatureR)
                (bigSetBytes e.SignatureS))
    ∧ (e.Verify X).receiver = e := by
  unfold Envelope.Verify
  cases h : X.DecodeECDSAPublicKey e.PublicKey with
  | none => simp
  | some publicKey => simp

/-! ## Transactions -/

/-- C17: a reference update is valid exactly when its version is 1 and its
repository and ref are not empty; what `NewReferenceUpdate` builds is valid
exactly when the repository and the ref given are not empty, whatever the two
object ids are. -/
theorem ReferenceUpdate_Valid_iff (txn : ReferenceUpdate) (repository ref old new : List Byte) :
    (txn.Valid = true ↔ txn.Version = 1 ∧ txn.Repository ≠ [] ∧ txn.Ref ≠ [])
    ∧ ((NewReferenceUpdate repository ref old new).Valid = true
        ↔ repository ≠ [] ∧ ref ≠ []) := by
  have hpos : ∀ l : List Byte, 0 < l.length ↔ l ≠ [] := fun l => List.length_pos
  constructor
  · simp [ReferenceUpdate.Valid, REFERENCE_UPDATE_VERSION, hpos, and_assoc]
  · simp [ReferenceUpdate.Valid, NewReferenceUpdate, REFERENCE_UPDATE_VERSION, hpos]

/-- C18 (amended): the hash of a transaction is the SHA-256 digest of the gob
encoding of the transaction value, which `hash` makes for itself; `Encode`
returns the gob encoding of the transaction as an interface value. The hash
is the digest of what `Encode` returns when the two encodings are the same
bytes. -/
theorem Transaction_Hash_eq (X : Ext) (t : Transaction) (txn : ReferenceUpdate) :
    t.Hash X = X.SHA256 (X.gobEncode t)
    ∧ (t.Encode X).1 = (X.gobEncodeInterface t).1
    ∧ ((X.gobEncodeInterface t).1 = X.gobEncode t → t.Hash X = X.SHA256 (t.Encode X).1)
    ∧ txn.Hash X = X.SHA256 (X.gobEncode (Transaction.referenceUpdate txn))
    ∧ (txn.Encode X).1 = (X.gobEncodeInterface (Transaction.referenceUpdate txn)).1
    ∧ (t.Hash X).length = 32 := by
  have h : t.Hash X = X.SHA256 (X.gobEncode t) := by
    simp [Transaction.Hash, hash]
  refine ⟨h, rfl, ?_, ?_, rfl, ?_⟩
  · intro he
    rw [h, ← he]
    rfl
  · simp [ReferenceUpdate.Hash, hash]
  · rw [h]
    exact X.SHA256_length _

set_option maxRecDepth 100000 in
/-- C18 (as stated, refuted): for the sample reference update, encoded as a
value and as an interface value with its registered name in front, the hash is
not the digest of the bytes `Encode` returns. -/
theorem hash_is_not_of_Encode :
    (ReferenceUpdate.Encode sampleExt sampleUpdate).1
      ≠ sampleExt.gobEncode (Transaction.referenceUpdate sampleUpdate)
    ∧ ReferenceUpdate.Hash sampleExt sampleUpdate
      ≠ sampleExt.SHA256 (ReferenceUpdate.Encode sampleExt sampleUpdate).1 := by
  decide

/-! ## The storage engine: `tx-next` and `prev-envelope` -/

theorem mapGet_mapSet {κ ν : Type} [DecidableEq κ] (m : List (κ × ν)) (k k' : κ) (v : ν) :
    mapGet (mapSet m k v) k' = if k = k' then some v else mapGet m k' := by
  simp [mapGet, mapSet]

theorem putEnvelope_snd (X : Ext) (blockHash : Hash) (s : DB × Option Hash) (e : Envelope) :
    (putEnvelope X blockHash s e).2 = some (e.Hash X) := rfl

theorem putEnvelope_txNext (X : Ext) (blockHash : Hash) (db : DB) (previous : Option Hash)
    (e : Envelope) (k : Hash) (hp : ∀ p, previous = some p → p ≠ k) :
    mapGet (putEnvelope X blockHash (db, previous) e).1.txNext k = mapGet db.txNext k := by
  cases previous with
  | none => rfl
  | some p =>
    have := hp p rfl
    simp [putEnvelope, mapGet_mapSet, this]

/-- Going through envelopes leaves `tx-next` as it is at every key that is
neither the previous transaction nor one of the envelopes but the last. -/
theorem foldl_txNext_untouched (X : Ext) (blockHash : Hash) (es : List Envelope) (db : DB)
    (previous : Option Hash) (k : Hash) (hp : ∀ p, previous = some p → p ≠ k)
    (hk : k ∉ (es.map (Envelope.Hash X)).dropLast) :
    mapGet (es.foldl (putEnvelope X blockHash) (db, previous)).1.txNext k
      = mapGet db.txNext k := by
  induction es generalizing db previous with
  | nil => rfl
  | cons e es ih =>
    rw [List.foldl_cons]
    cases es with
    | nil =>
      simp only [List.foldl_nil]
      exact putEnvelope_txNext X blockHash db previous e k hp
    | cons e2 es2 =>
      simp only [List.map_cons, List.dropLast_cons₂, List.mem_cons, not_or] at hk
      have h1 := ih (putEnvelope X blockHash (db, previous) e).1
        (putEnvelope X blockHash (db, previous) e).2
        (by
          intro p hpe
          rw [putEnvelope_snd] at hpe
          cases hpe
          exact fun h => hk.1 h.symm)
        (by
          simp only [List.map_cons]
          exact hk.2)
      rw [show (putEnvelope X blockHash (db, previous) e)
          = ((putEnvelope X blockHash (db, previous) e).1,
             (putEnvelope X blockHash (db, previous) e).2) from rfl, h1]
      exact putEnvelope_txNext X blockHash db previous e k hp

theorem foldl_pair (X : Ext) (blockHash : Hash) (es : List Envelope) (s : DB × Option Hash) :
    es.foldl (putEnvelope X blockHash) s
      = es.foldl (putEnvelope X blockHash) (s.1, s.2) := rfl

/-- Going through envelopes with distinct hashes sets `tx-next` of each one
that has a successor to the hash of its successor. -/
theorem foldl_txNext_link (X : Ext) (blockHash : Hash) (pre post : List Envelope)
    (t next : Envelope) (s : DB × Option Hash)
    (hnodup : ((pre ++ t :: next :: post).map (Envelope.Hash X)).Nodup) :
    mapGet ((pre ++ t :: next :: post).foldl (putEnvelope X blockHash) s).1.txNext (t.Hash X)
      = some (next.Hash X) := by
  rw [List.foldl_append, List.foldl_cons, List.foldl_cons, foldl_pair]
  simp only [List.map_append, List.map_cons, List.nodup_append, List.nodup_cons,
    List.mem_cons, not_or] at hnodup
  obtain ⟨_, ⟨⟨htn, htpost⟩, _, _⟩, _⟩ := hnodup
  rw [foldl_txNext_untouched]
  · simp [putEnvelope, mapGet_mapSet]
  · intro p hp
    rw [putEnvelope_snd] at hp
    cases hp
    exact fun h => htn h.symm
  · intro hmem
    exact htpost (List.mem_of_mem_dropLast hmem)

/-- Going through envelopes with distinct hashes leaves `tx-next` of the last
one as it was. -/
theorem foldl_txNext_last (X : Ext) (blockHash : Hash) (pre : List Envelope) (last : Envelope)
    (db : DB) (previous : Option Hash) (hp : ∀ p, previous = some p → p ≠ last.Hash X)
    (hnodup : ((pre ++ [last]).map (Envelope.Hash X)).Nodup) :
    mapGet ((pre ++ [last]).foldl (putEnvelope X blockHash) (db, previous)).1.txNext
        (last.Hash X)
      = mapGet db.txNext (last.Hash X) := by
  apply foldl_txNext_untouched X blockHash _ db previous _ hp
  simp only [List.map_append, List.map_cons, List.map_nil, List.dropLast_concat]
  simp only [List.map_append, List.map_cons, List.map_nil, List.nodup_append,
    List.nodup_cons] at hnodup
  intro hmem
  exact hnodup.2.2 hmem (List.mem_singleton_self _)

theorem PutBlock_txNext (X : Ext) (db : DB) (b : Block) (confirmed : Bool) :
    (PutBlock X db b confirmed).txNext
      = (b.Transactions.foldl (putEnvelope X (b.Hash X))
          ({ db with block := mapSet db.block (b.Hash X) b },
           previousTransaction X db b)).1.txNext := by
  unfold PutBlock
  cases confirmed <;> rfl

/-- C19 (amended): for a block whose envelopes have pairwise different hashes,
after `PutBlock` on the empty store `GetNextTransactionHash` of the hash of
each envelope but the last returns the hash of the next envelope, and of the
hash of the last envelope the empty hash, each without error. -/
theorem PutBlock_next (X : Ext) (b : Block) (confirmed : Bool)
    (hnodup : (b.Transactions.map (Envelope.Hash X)).Nodup) :
    (∀ pre t next post, b.Transactions = pre ++ t :: next :: post →
        GetNextTransactionHash (PutBlock X emptyDB b confirmed) (t.Hash X)
          = (next.Hash X, false))
    ∧ (∀ pre last, b.Transactions = pre ++ [last] →
        GetNextTransactionHash (PutBlock X emptyDB b confirmed) (last.Hash X)
          = (EmptyHash, false)) := by
  constructor
  · intro pre t next post hb
    rw [hb] at hnodup
    unfold GetNextTransactionHash
    rw [PutBlock_txNext, hb, foldl_txNext_link X _ pre post t next _ hnodup]
  · intro pre last hb
    rw [hb] at hnodup
    unfold GetNextTransactionHash
    rw [PutBlock_txNext, hb]
    have hprev : previousTransaction X emptyDB b = none := by
      simp [previousTransaction, emptyDB, mapGet]
    rw [hprev, foldl_txNext_last X _ pre last _ none (by intro p hp; cases hp) hnodup]
    simp [emptyDB, mapGet]

set_option maxRecDepth 100000 in
/-- A block of the three sample envelopes: after the first comes the second,
after the third nothing. -/
theorem PutBlock_next_witness :
    GetNextTransactionHash (PutBlock sampleExt emptyDB
        (sampleBlock [envelopeA, envelopeB, envelopeC]) false) (envelopeA.Hash sampleExt)
      = (envelopeB.Hash sampleExt, false)
    ∧ GetNextTransactionHash (PutBlock sampleExt emptyDB
        (sampleBlock [envelopeA, envelopeB, envelopeC]) false) (envelopeC.Hash sampleExt)
      = (EmptyHash, false) :=
  have h := PutBlock_next sampleExt (sampleBlock [envelopeA, envelopeB, envelopeC]) false
    (by decide)
  ⟨h.1 [] envelopeA envelopeB [envelopeC] rfl, h.2 [envelopeA, envelopeB] envelopeC rfl⟩

set_option maxRecDepth 100000 in
/-- C19 (as stated, refuted): a block that holds the same envelope twice. After
`PutBlock` on the empty store `GetNextTransactionHash` of the hash of the last
envelope returns that hash, not the empty hash. -/
theorem PutBlock_next_of_repeated_envelope :
    GetNextTransactionHash (PutBlock sampleExt emptyDB (sampleBlock [envelopeA, envelopeA]) false)
        (envelopeA.Hash sampleExt)
      = (envelopeA.Hash sampleExt, false)
    ∧ envelopeA.Hash sampleExt ≠ EmptyHash := by
  decide

/-! ## The storage engine: `prev-envelope` -/

theorem putEnvelope_prevEnvelope (X : Ext) (blockHash : Hash) (s : DB × Option Hash)
    (e : Envelope) (k : List Byte) :
    mapGet (putEnvelope X blockHash s e).1.prevEnvelope k
      = if e.PublicKey = k then some (e.Hash X) else mapGet s.1.prevEnvelope k := by
  simp [putEnvelope, mapGet_mapSet]

/-- Going through envelopes of other keys leaves `prev-envelope` of a key as it is. -/
theorem foldl_prevEnvelope_untouched (X : Ext) (blockHash : Hash) (es : List Envelope)
    (s : DB × Option Hash) (k : List Byte) (hk : ∀ e ∈ es, e.PublicKey ≠ k) :
    mapGet (es.foldl (putEnvelope X blockHash) s).1.prevEnvelope k
      = mapGet s.1.prevEnvelope k := by
  induction es generalizing s with
  | nil => rfl
  | cons e es ih =>
    rw [List.foldl_cons, ih _ (fun e' he' => hk e' (List.mem_cons_of_mem _ he')),
      putEnvelope_prevEnvelope, if_neg (hk e (List.mem_cons_self _ _))]

/-- Going through envelopes sets `prev-envelope` of a key to the hash of the last
envelope that carries the key. -/
theorem foldl_prevEnvelope_last (X : Ext) (blockHash : Hash) (pre post : List Envelope)
    (e : Envelope) (s : DB × Option Hash) (k : List Byte) (he : e.PublicKey = k)
    (hpost : ∀ e' ∈ post, e'.PublicKey ≠ k) :
    mapGet ((pre ++ e :: post).foldl (putEnvelope X blockHash) s).1.prevEnvelope k
      = some (e.Hash X) := by
  rw [List.foldl_append, List.foldl_cons, foldl_prevEnvelope_untouched X blockHash post _ k hpost,
    putEnvelope_prevEnvelope, if_pos he]

theorem PutBlock_prevEnvelope (X : Ext) (db : DB) (b : Block) (confirmed : Bool) :
    (PutBlock X db b confirmed).prevEnvelope
      = (b.Transactions.foldl (putEnvelope X (b.Hash X))
          ({ db with block := mapSet db.block (b.Hash X) b },
           previousTransaction X db b)).1.prevEnvelope := by
  unfold PutBlock
  cases confirmed <;> rfl

/-- Calls none of which puts a block with an envelope of a key leave
`prev-envelope` of that key as it is. -/
theorem foldl_apply_prevEnvelope (X : Ext) (ops : List Op) (db : DB) (k : List Byte)
    (hops : ∀ b confirmed, Op.putBlock b confirmed ∈ ops →
      ∀ e ∈ b.Transactions, e.PublicKey ≠ k) :
    mapGet (ops.foldl (Op.apply X) db).prevEnvelope k = mapGet db.prevEnvelope k := by
  induction ops generalizing db with
  | nil => rfl
  | cons op ops ih =>
    rw [List.foldl_cons,
      ih _ (fun b c hb => hops b c (List.mem_cons_of_mem _ hb))]
    cases op with
    | putBlock b confirmed =>
      show mapGet (PutBlock X db b confirmed).prevEnvelope k = _
      rw [PutBlock_prevEnvelope,
        foldl_prevEnvelope_untouched X _ _ _ k (hops b confirmed (List.mem_cons_self _ _))]
    | putTransaction e => rfl
    | deleteTransaction hash => rfl

/-- C20 (amended): for a key with the encoding `k`, after `PutBlock` of a block on any store
`GetPreviousEnvelopeHashForPublicKey` returns the hash of the last envelope of
the block that carries `k` as its public key, without error; and after any
sequence of calls on the empty store in which no put block holds an envelope
with public key `k`, it returns nil without error. -/
theorem prevEnvelope_spec (X : Ext) (key : PublicKey) (k : List Byte)
    (hkey : X.EncodeECDSAPublicKey key = some k) :
    (∀ (db : DB) (b : Block) (confirmed : Bool) (pre post : List Envelope) (e : Envelope),
        b.Transactions = pre ++ e :: post → e.PublicKey = k →
        (∀ e' ∈ post, e'.PublicKey ≠ k) →
        GetPreviousEnvelopeHashForPublicKey X (PutBlock X db b confirmed) key
          = (some (e.Hash X), false))
    ∧ (∀ ops : List Op,
        (∀ b confirmed, Op.putBlock b confirmed ∈ ops →
          ∀ e ∈ b.Transactions, e.PublicKey ≠ k) →
        GetPreviousEnvelopeHashForPublicKey X (run X ops) key = (none, false)) := by
  constructor
  · intro db b confirmed pre post e hb he hpost
    unfold GetPreviousEnvelopeHashForPublicKey
    rw [hkey]
    show (mapGet (PutBlock X db b confirmed).prevEnvelope k, false) = _
    rw [PutBlock_prevEnvelope, hb, foldl_prevEnvelope_last X _ pre post e _ k he hpost]
  · intro ops hops
    unfold GetPreviousEnvelopeHashForPublicKey
    rw [hkey]
    show (mapGet (run X ops).prevEnvelope k, false) = _
    unfold run
    rw [foldl_apply_prevEnvelope X ops emptyDB k hops]
    rfl

set_option maxRecDepth 100000 in
/-- The key `(5, 7)`: after the block of the three sample envelopes the answer is
the hash of the third, and after a block that holds only the second it is nil. -/
theorem prevEnvelope_spec_witness :
    GetPreviousEnvelopeHashForPublicKey sampleExt
        (PutBlock sampleExt emptyDB (sampleBlock [envelopeA, envelopeB, envelopeC]) false)
        { X := 5, Y := 7 }
      = (some (envelopeC.Hash sampleExt), false)
    ∧ GetPreviousEnvelopeHashForPublicKey sampleExt
        (run sampleExt [Op.putBlock (sampleBlock [envelopeB]) false]) { X := 5, Y := 7 }
      = (none, false) :=
  have h := prevEnvelope_spec sampleExt { X := 5, Y := 7 } [5, 7] (by decide)
  ⟨h.1 emptyDB (sampleBlock [envelopeA, envelopeB, envelopeC]) false [envelopeA, envelopeB] []
      envelopeC rfl (by decide) (by intro e he; cases he),
   h.2 [Op.putBlock (sampleBlock [envelopeB]) false] (by
      intro b confirmed hb e he
      simp only [List.mem_singleton, Op.putBlock.injEq] at hb
      obtain ⟨rfl, _⟩ := hb
      simp only [sampleBlock, List.mem_singleton] at he
      subst he
      decide)⟩

set_option maxRecDepth 100000 in
/-- C20 (as stated, refuted): the key `(256, 0)` has no encoding; on the empty
store, where no envelope was ever stored under any key, the query for it
returns nil with an error. -/
theorem unencodable_key_gives_error :
    sampleExt.EncodeECDSAPublicKey { X := 256, Y := 0 } = none
    ∧ (run sampleExt []).prevEnvelope = []
    ∧ GetPreviousEnvelopeHashForPublicKey sampleExt (run sampleExt []) { X := 256, Y := 0 }
      = (none, true) := by
  decide

end Ledger
